import Mathlib

/-!
A verification development for `pkg/server/server.go`.

The Go package implements a small HTTP server: `Server.handle` parses one
request out of the bytes of a single read, `Server.validate` matches the
request path against the registered route patterns, and `Server.Register`
fills the route table.

The embedding is shallow.  Go strings and byte slices are lists of bytes
(`GoString`), a Go `map[string]string` is an association list with unique
keys (`GoMap`), a run-time panic of the Go program is an explicit result
(`Outcome.panic`), and every index or slice expression of the source goes
through a checked operation, so that an out-of-range access shows up as a
panic of the model.
-/

namespace Server

/-! ## Go values -/

/-- A Go string (or byte slice): a finite sequence of bytes. -/
abbrev GoString := List Char

/-- The run-time panics the program can raise. -/
inductive Panic
  | indexOutOfRange
  | sliceOutOfRange
  deriving DecidableEq, Repr

/-- Result of running a piece of Go code: a value, or a run-time panic. -/
inductive Outcome (α : Type)
  | ok (a : α)
  | panic (p : Panic)
  deriving DecidableEq, Repr

/-- Checked slice expression `s[lo:hi]`; the bounds are Go `int`s. -/
def substr (s : GoString) (lo hi : Int) : Outcome GoString :=
  if 0 ≤ lo ∧ lo ≤ hi ∧ hi ≤ (s.length : Int) then
    Outcome.ok ((s.drop lo.toNat).take (hi - lo).toNat)
  else
    Outcome.panic Panic.sliceOutOfRange

/-- Checked index expression `xs[i]` on a slice. -/
def elemAt {α : Type} (xs : List α) (i : Nat) : Outcome α :=
  match xs[i]? with
  | some x => Outcome.ok x
  | none => Outcome.panic Panic.indexOutOfRange

/-- Position of the first occurrence of `sep` in `s`, if there is one. -/
def findIndex : GoString → GoString → Option Nat
  | [], sep => if sep.isPrefixOf [] then some 0 else none
  | c :: t, sep =>
    if sep.isPrefixOf (c :: t) then some 0
    else (findIndex t sep).map (· + 1)

/-- Go `bytes.Index` / `strings.Index`: first position of `sep`, or `-1`. -/
def bytesIndex (s sep : GoString) : Int :=
  match findIndex s sep with
  | some i => (i : Int)
  | none => -1

/-- The loop of Go `strings.genSplit` for a non-empty separator: cut at the
first occurrence of `sep`, continue behind it; `n` bounds the iterations. -/
def genSplit (sep : GoString) : Nat → GoString → List GoString
  | 0, s => [s]
  | n + 1, s =>
    match findIndex s sep with
    | none => [s]
    | some m => s.take m :: genSplit sep n (s.drop (m + sep.length))

/-- Go `strings.Split(s, sep)` for a non-empty `sep`.  The number of cuts is
at most `len(s)`, which bounds the loop. -/
def strSplit (s sep : GoString) : List GoString :=
  genSplit sep s.length s

/-- Go `strings.Trim(s, cutset)`: drop leading and trailing bytes of `cutset`. -/
def strTrim (s cutset : GoString) : GoString :=
  ((s.dropWhile (fun c => decide (c ∈ cutset))).reverse.dropWhile
    (fun c => decide (c ∈ cutset))).reverse

/-- A Go `map[string]string`: association list with unique keys. -/
abbrev GoMap := List (GoString × GoString)

/-- Map assignment `m[k] = v`. -/
def mapSet (m : GoMap) (k v : GoString) : GoMap :=
  (k, v) :: m.filter (fun e => decide (e.1 ≠ k))

/-- Map lookup `m[k]`. -/
def mapGet (m : GoMap) (k : GoString) : Option GoString :=
  (m.find? (fun e => decide (e.1 = k))).map (fun e => e.2)

/-- A `HandlerFunc` value: `nil`, or a handler identified by a number. -/
abbrev HandlerFunc := Option Nat

/-- The route table `s.handlers`.  Keys are unique; the order of the list is the
order in which `range s.handlers` enumerates the keys in the call at hand
(Go leaves it unspecified). -/
abbrev Handlers := List (GoString × HandlerFunc)

/-- Lookup `s.handlers[route]` with the `found` flag. -/
def lookupHandler (handlers : Handlers) (route : GoString) : Option HandlerFunc :=
  (handlers.find? (fun e => decide (e.1 = route))).map (fun e => e.2)

/-- Method `Server.Register`: the assignment `s.handlers[path] = handler`. -/
def Register (handlers : Handlers) (path : GoString) (handler : HandlerFunc) : Handlers :=
  if handlers.any (fun e => decide (e.1 = path)) then
    handlers.map (fun e => if e.1 = path then (path, handler) else e)
  else
    handlers ++ [(path, handler)]

/-! ## `Server.validate` -/

/-- State after one pass of the body of `for j, v := range partsRoute`:
the parameter map, `flag`, and whether the body left the loop by `break`. -/
structure SegState where
  headerTo : GoMap
  flag : Bool
  broke : Bool
  deriving DecidableEq, Repr

/-- Body of the loop over the pattern segments (source lines 184-203). -/
def segBody (pRotes : List GoString) (j : Nat) (v : GoString)
    (headerTo : GoMap) (flag : Bool) : Outcome SegState :=
  if v ≠ [] then
    match substr v 0 1 with
    | Outcome.panic e => Outcome.panic e
    | Outcome.ok f =>
    match substr v ((v.length : Int) - 1) (v.length : Int) with
    | Outcome.panic e => Outcome.panic e
    | Outcome.ok l =>
    if f = ['{'] ∧ l = ['}'] then
      match substr v 1 ((v.length : Int) - 1) with
      | Outcome.panic e => Outcome.panic e
      | Outcome.ok name =>
      match elemAt pRotes j with
      | Outcome.panic e => Outcome.panic e
      | Outcome.ok p => Outcome.ok ⟨mapSet headerTo name p, true, false⟩
    else
      match elemAt pRotes j with
      | Outcome.panic e => Outcome.panic e
      | Outcome.ok p =>
      if p ≠ v then
        let strs := strSplit v ['{']
        if strs.length > 0 then
          match elemAt strs 1 with
          | Outcome.panic e => Outcome.panic e
          | Outcome.ok s1 =>
          match substr s1 0 ((s1.length : Int) - 1) with
          | Outcome.panic e => Outcome.panic e
          | Outcome.ok key =>
          match elemAt strs 0 with
          | Outcome.panic e => Outcome.panic e
          | Outcome.ok s0 =>
          match substr p (s0.length : Int) (p.length : Int) with
          | Outcome.panic e => Outcome.panic e
          | Outcome.ok val => Outcome.ok ⟨mapSet headerTo key val, true, false⟩
        else
          Outcome.ok ⟨headerTo, false, true⟩
      else
        Outcome.ok ⟨headerTo, true, false⟩
  else
    Outcome.ok ⟨headerTo, flag, false⟩

/-- The loop `for j, v := range partsRoute`, from index `j` on. -/
def segLoop (pRotes : List GoString) :
    Nat → List GoString → GoMap → Bool → Outcome (GoMap × Bool)
  | _, [], headerTo, flag => Outcome.ok (headerTo, flag)
  | j, v :: rest, headerTo, flag =>
    match segBody pRotes j v headerTo flag with
    | Outcome.panic e => Outcome.panic e
    | Outcome.ok st =>
      if st.broke then Outcome.ok (st.headerTo, st.flag)
      else segLoop pRotes (j + 1) rest st.headerTo st.flag

/-- The loop over `strRoutes` (source lines 177-211).  `headerTo` is created
once before the loop and shared by all candidates. -/
def routeLoop (handlers : Handlers) (path : GoString) :
    List GoString → GoMap → Outcome (Option GoMap × HandlerFunc)
  | [], _ => Outcome.ok (none, none)
  | route :: rest, headerTo =>
    match segLoop (strSplit path ['/']) 0 (strSplit route ['/']) headerTo false with
    | Outcome.panic e => Outcome.panic e
    | Outcome.ok (headerTo1, flag) =>
      if flag then
        match lookupHandler handlers route with
        | some hr => Outcome.ok (some headerTo1, hr)
        | none => Outcome.ok (none, none)
      else routeLoop handlers path rest headerTo1

/-- Method `Server.validate`: the keys are collected in iteration order, then tried
one after the other.  The result `(nil, nil)` is `(none, none)`. -/
def validate (handlers : Handlers) (path : GoString) :
    Outcome (Option GoMap × HandlerFunc) :=
  routeLoop handlers path (handlers.map (fun e => e.1)) []

/-! ## `Server.handle` -/

/-- Go `url.Values`: the multi-valued query parameters. -/
abbrev Values := List (GoString × List GoString)

/-- The fields of a parsed `*url.URL` the server reads: `uri.Path` and the
result of `uri.Query()`. -/
structure URL where
  Path : GoString
  Query : Values
  deriving DecidableEq, Repr

/-- The two functions of Go package `net/url` called by `handle`; `none` is
a non-nil `err`. -/
structure UrlLib where
  PathUnescape : GoString → Option GoString
  ParseRequestURI : GoString → Option URL

/-- The `Request` handed to a handler (the connection handle is left out). -/
structure Request where
  QueryParams : Values
  PathParams : Option GoMap
  Headers : GoMap
  Body : GoString
  deriving DecidableEq, Repr

/-- What one pass of the read loop of `handle` does with the bytes read:
it returns from `handle`, it panics, or it calls `handler(&req)`, where the
handler `none` is the fallback closure that closes the connection. -/
inductive HandleResult
  | returned
  | panicked (p : Panic)
  | dispatched (handler : HandlerFunc) (req : Request)
  deriving DecidableEq, Repr

/-- Checked slice expression `xs[lo:]` on a slice. -/
def sliceFrom {α : Type} (xs : List α) (lo : Nat) : Outcome (List α) :=
  if lo ≤ xs.length then Outcome.ok (xs.drop lo) else Outcome.panic Panic.sliceOutOfRange

/-- The loop `for _, v := range headers` (source lines 114-117). -/
def headerLoop : List GoString → GoMap → Outcome GoMap
  | [], headerTo => Outcome.ok headerTo
  | v :: rest, headerTo =>
    let headerLine := strSplit v [':', ' ']
    match elemAt headerLine 0 with
    | Outcome.panic e => Outcome.panic e
    | Outcome.ok k =>
    match elemAt headerLine 1 with
    | Outcome.panic e => Outcome.panic e
    | Outcome.ok val => headerLoop rest (mapSet headerTo k val)

/-- The request-line part of `handle` and the dispatch (source lines 126-163),
with `req.Headers` and `req.Body` already computed. -/
def handleLine (lib : UrlLib) (handlers : Handlers) (data : GoString)
    (endIndex : Int) (headerTo : GoMap) (body : GoString) : HandleResult :=
  match substr data 0 endIndex with
  | Outcome.panic e => HandleResult.panicked e
  | Outcome.ok reqLine =>
  let parts := strSplit reqLine [' ']
  if parts.length ≠ 3 then HandleResult.returned
  else
    match elemAt parts 1 with
    | Outcome.panic e => HandleResult.panicked e
    | Outcome.ok path =>
    match elemAt parts 2 with
    | Outcome.panic e => HandleResult.panicked e
    | Outcome.ok version =>
    if version ≠ "HTTP/1.1".toList then HandleResult.returned
    else
      match lib.PathUnescape path with
      | none => HandleResult.returned
      | some decode =>
      match lib.ParseRequestURI decode with
      | none => HandleResult.returned
      | some uri =>
      match validate handlers uri.Path with
      | Outcome.panic e => HandleResult.panicked e
      | Outcome.ok (pathParameters, hr) =>
        match hr with
        | some h => HandleResult.dispatched (some h) ⟨uri.Query, pathParameters, headerTo, body⟩
        | none => HandleResult.dispatched none ⟨uri.Query, none, headerTo, body⟩

/-- One pass of the read loop of `Server.handle` on the bytes `data` of a
successful `conn.Read` (source lines 94-163). -/
def handle (lib : UrlLib) (handlers : Handlers) (data : GoString) : HandleResult :=
  let endOfLine : GoString := ['\r', '\n']
  let endIndex := bytesIndex data endOfLine
  if endIndex = -1 then HandleResult.returned
  else
    let lineEnders : GoString := ['\r', '\n', '\r', '\n']
    let lineIndex := bytesIndex data lineEnders
    if endIndex = -1 then HandleResult.returned
    else
      match substr data endIndex lineIndex with
      | Outcome.panic e => HandleResult.panicked e
      | Outcome.ok headersLine =>
      match sliceFrom (strSplit headersLine ['\r', '\n']) 1 with
      | Outcome.panic e => HandleResult.panicked e
      | Outcome.ok headers =>
      match headerLoop headers [] with
      | Outcome.panic e => HandleResult.panicked e
      | Outcome.ok headerTo =>
      match substr data lineIndex (data.length : Int) with
      | Outcome.panic e => HandleResult.panicked e
      | Outcome.ok newData =>
      handleLine lib handlers data endIndex headerTo (strTrim newData ['\r', '\n'])

/-- Method `Server.Response`. -/
def Response (body : GoString) : GoString :=
  "HTTP/1.1 200 OK\r\n".toList ++
    "Content-Length: ".toList ++ (Nat.repr body.length).toList ++ "\r\n".toList ++
    "Content-Type: text/html\r\n".toList ++
    "Connection: close\r\n".toList ++
    "\r\n".toList ++ body

/-- How often `sep` occurs in `s` (occurrences may overlap). -/
def occurrences (sep : GoString) : GoString → Nat
  | [] => if sep.isPrefixOf [] then 1 else 0
  | c :: t => (if sep.isPrefixOf (c :: t) then 1 else 0) + occurrences sep t

/-- A `UrlLib` for closed examples: no unescaping, the whole string is the
path, the query is empty. -/
def plainLib : UrlLib := ⟨fun s => some s, fun s => some ⟨s, []⟩⟩


/-- The number a string of decimal digits denotes, read from the left. -/
def decimalValue (ds : GoString) : Nat :=
  ds.foldl (fun acc c => 10 * acc + (c.toNat - 48)) 0

/-! ## Package `net/url` -/

/-- Value of a hexadecimal digit (Go `unhex`); `none` when the byte is not a
hexadecimal digit (Go `ishex`). -/
def unhex (c : Char) : Option Nat :=
  if '0' ≤ c ∧ c ≤ '9' then some (c.toNat - '0'.toNat)
  else if 'a' ≤ c ∧ c ≤ 'f' then some (c.toNat - 'a'.toNat + 10)
  else if 'A' ≤ c ∧ c ≤ 'F' then some (c.toNat - 'A'.toNat + 10)
  else none

/-- Go `url.unescape` in the modes used for paths (`encodePathSegment` for
`url.PathUnescape`, `encodePath` for `URL.setPath`): every `%XX` becomes the
byte with hexadecimal value `XX`, every other byte is kept, and a `%` that is
not followed by two hexadecimal digits is an error (`none`). -/
def unescape : GoString → Option GoString
  | [] => some []
  | c :: t =>
    if c = '%' then
      match t with
      | a :: b :: t2 =>
        match unhex a, unhex b with
        | some x, some y => (unescape t2).map (fun r => Char.ofNat (16 * x + y) :: r)
        | _, _ => none
      | _ => none
    else (unescape t).map (fun r => c :: r)

/-- Go `strings.Cut(s, "?")`: the parts before and after the first `?`; the
second part is empty when there is no `?`. -/
def cutQuery (s : GoString) : GoString × GoString :=
  (s.takeWhile (fun c => decide (c ≠ '?')), (s.dropWhile (fun c => decide (c ≠ '?'))).drop 1)

/-- Outcome of Go `url.getScheme`. -/
inductive Scheme
  | missing
  | absent
  | present (scheme rest : GoString)
  deriving DecidableEq, Repr

/-- Go `url.getScheme`, scanning `s` from byte `i` of `rawURL` on: letters go
on, a digit or `+ - .` at index 0 means no scheme, `:` ends the scheme (an
error at index 0), any other byte means no scheme. -/
def getSchemeFrom (rawURL : GoString) : Nat → GoString → Scheme
  | _, [] => Scheme.absent
  | i, c :: t =>
    if ('a' ≤ c ∧ c ≤ 'z') ∨ ('A' ≤ c ∧ c ≤ 'Z') then getSchemeFrom rawURL (i + 1) t
    else if ('0' ≤ c ∧ c ≤ '9') ∨ c = '+' ∨ c = '-' ∨ c = '.' then
      if i = 0 then Scheme.absent else getSchemeFrom rawURL (i + 1) t
    else if c = ':' then
      if i = 0 then Scheme.missing else Scheme.present (rawURL.take i) t
    else Scheme.absent

/-- Go `url.ParseRequestURI` followed by the two reads `handle` makes of the
result, `uri.Path` and `uri.Query()`.  A URL without scheme is parsed as in
`url.parse` with `viaRequest`: control bytes and the empty string are
errors, `*` is the path `*`, the string is cut at the first `?`, the part
before it has to begin with `/` and is unescaped into `Path`.  The parse of
the raw query (`url.ParseQuery`) and the treatment of a URL that has a scheme
are parameters. -/
def ParseRequestURI (parseQuery : GoString → Values) (withScheme : GoString → Option URL)
    (rawURL : GoString) : Option URL :=
  if rawURL.any (fun c => decide (c < ' ' ∨ c = Char.ofNat 127)) then none
  else if rawURL = [] then none
  else if rawURL = ['*'] then some ⟨['*'], parseQuery []⟩
  else
    match getSchemeFrom rawURL 0 rawURL with
    | Scheme.missing => none
    | Scheme.present _ _ => withScheme rawURL
    | Scheme.absent =>
      let rest := (cutQuery rawURL).1
      let rawQuery := (cutQuery rawURL).2
      if ¬ ['/'] <+: rest then none
      else
        match unescape rest with
        | none => none
        | some path => some ⟨path, parseQuery rawQuery⟩

/-- The functions of `net/url` as `handle` calls them. -/
def goLib (parseQuery : GoString → Values) (withScheme : GoString → Option URL) : UrlLib :=
  ⟨unescape, ParseRequestURI parseQuery withScheme⟩

/-! ## The lock of the route table -/

/-- What a goroutine does with `s.mu` and `s.handlers`. -/
inductive Op
  | RLock
  | RUnlock
  | Lock
  | Unlock
  | writeTable
  | readTable
  deriving DecidableEq, Repr

/-- The steps of `Server.Register` in program order (source lines 44-46). -/
def RegisterOps : List Op := [Op.RLock, Op.writeTable, Op.RUnlock]

/-- The steps of the matching section of `Server.handle` in program order
(source lines 155-161); `validate` reads the table. -/
def matchOps : List Op := [Op.RLock, Op.readTable, Op.RUnlock]

/-- State of a Go `sync.RWMutex`: how many goroutines hold the read lock and
whether one holds the write lock. -/
structure RWMutex where
  readers : Nat
  writer : Bool
  deriving DecidableEq, Repr

/-- One step of a goroutine on the mutex; `none` when the goroutine has to
wait (or misuses the mutex).  Table accesses do not touch the mutex. -/
def RWMutex.step (mu : RWMutex) : Op → Option RWMutex
  | Op.RLock => if mu.writer then none else some ⟨mu.readers + 1, false⟩
  | Op.RUnlock => if mu.readers = 0 then none else some ⟨mu.readers - 1, mu.writer⟩
  | Op.Lock => if mu.writer ∨ mu.readers ≠ 0 then none else some ⟨0, true⟩
  | Op.Unlock => if mu.writer then some ⟨mu.readers, false⟩ else none
  | Op.writeTable => some mu
  | Op.readTable => some mu

/-- Goroutines sharing the server: the mutex and the steps each goroutine has
still to do. -/
structure Goroutines where
  mu : RWMutex
  todo : List (List Op)
  deriving DecidableEq, Repr

/-- Goroutine `i` does its next step, if it can. -/
def Goroutines.stepOf (s : Goroutines) (i : Nat) : Option Goroutines :=
  match s.todo[i]? with
  | some (op :: rest) =>
    match s.mu.step op with
    | some mu1 => some ⟨mu1, s.todo.set i rest⟩
    | none => none
  | _ => none

/-- Run a schedule: the goroutines that step, in order. -/
def Goroutines.run (s : Goroutines) : List Nat → Option Goroutines
  | [] => some s
  | i :: schedule =>
    match s.stepOf i with
    | some s1 => s1.run schedule
    | none => none

/-- A data race on the table: two goroutines are about to access it at the
same time and one of the accesses is a write. -/
def Goroutines.racy (s : Goroutines) : Bool :=
  let writes := (s.todo.filter (fun g => decide (g.head? = some Op.writeTable))).length
  let reads := (s.todo.filter (fun g => decide (g.head? = some Op.readTable))).length
  decide (2 ≤ writes ∨ (1 ≤ writes ∧ 1 ≤ reads))

/-! ## Basic facts about the Go operations -/

theorem genSplit_ne_nil (sep : GoString) (n : Nat) (s : GoString) :
    genSplit sep n s ≠ [] := by
  cases n with
  | zero => simp [genSplit]
  | succ n =>
    unfold genSplit
    cases findIndex s sep <;> simp

theorem strSplit_length_pos (s sep : GoString) : 0 < (strSplit s sep).length :=
  List.length_pos.mpr (genSplit_ne_nil sep s.length s)

theorem elemAt_some {α : Type} (xs : List α) (i : Nat) (x : α) (h : xs[i]? = some x) :
    elemAt xs i = Outcome.ok x := by
  simp [elemAt, h]

theorem elemAt_none {α : Type} (xs : List α) (i : Nat) (h : xs[i]? = none) :
    elemAt xs i = Outcome.panic Panic.indexOutOfRange := by
  simp [elemAt, h]

theorem substr_first (v : GoString) (hv : v ≠ []) :
    substr v 0 1 = Outcome.ok (v.take 1) := by
  have h1 : (1 : Int) ≤ (v.length : Int) := by
    have := List.length_pos.mpr hv
    omega
  simp [substr, h1]

theorem substr_last (v : GoString) (hv : v ≠ []) :
    substr v ((v.length : Int) - 1) (v.length : Int) = Outcome.ok (v.drop (v.length - 1)) := by
  have hpos := List.length_pos.mpr hv
  have h1 : (0 : Int) ≤ (v.length : Int) - 1 := by omega
  have h2 : ((v.length : Int) - 1).toNat = v.length - 1 := by omega
  have h3 : ((v.length : Int) - ((v.length : Int) - 1)).toNat = 1 := by omega
  simp only [substr, h1, h2, h3]
  simp
  omega

/-- The test `f == "{" && l == "}"` of the source, on a non-empty segment. -/
theorem wrapped_iff (v : GoString) :
    (v.take 1 = ['{'] ∧ v.drop (v.length - 1) = ['}']) ↔ (['{'] <+: v ∧ ['}'] <:+ v) := by
  rw [List.prefix_iff_eq_take, List.suffix_iff_eq_drop]
  simp [eq_comm]

theorem segBody_nil (qs : List GoString) (j : Nat) (m : GoMap) (f : Bool) :
    segBody qs j [] m f = Outcome.ok ⟨m, f, false⟩ := by
  simp [segBody]

theorem segBody_literal_eq (qs : List GoString) (j : Nat) (v : GoString) (m : GoMap)
    (f : Bool) (hv : v ≠ []) (hw : ¬ (['{'] <+: v ∧ ['}'] <:+ v))
    (hq : qs[j]? = some v) :
    segBody qs j v m f = Outcome.ok ⟨m, true, false⟩ := by
  have hw2 : ¬ (v.take 1 = ['{'] ∧ v.drop (v.length - 1) = ['}']) := by
    rw [wrapped_iff]; exact hw
  unfold segBody
  rw [if_pos hv, substr_first v hv, substr_last v hv]
  simp only []
  rw [if_neg hw2, elemAt_some _ _ _ hq]
  simp

/-- The `break` of the inner loop is never taken: `strings.Split` returns at
least one element. -/
theorem segBody_not_broke (qs : List GoString) (j : Nat) (v : GoString) (m : GoMap)
    (f : Bool) (st : SegState) (h : segBody qs j v m f = Outcome.ok st) :
    st.broke = false := by
  unfold segBody at h
  have hpos := strSplit_length_pos v ['{']
  simp only [gt_iff_lt, hpos, if_true] at h
  split at h
  · repeat' split at h
    all_goals first
      | (injection h with h; rw [← h])
      | exact absurd h (by simp)
  · injection h with h; rw [← h]

theorem segLoop_cons (qs : List GoString) (j : Nat) (v : GoString) (rest : List GoString)
    (m : GoMap) (f : Bool) :
    segLoop qs j (v :: rest) m f =
      match segBody qs j v m f with
      | Outcome.panic e => Outcome.panic e
      | Outcome.ok st => segLoop qs (j + 1) rest st.headerTo st.flag := by
  rw [segLoop]
  cases hb : segBody qs j v m f with
  | panic e => rfl
  | ok st => simp [segBody_not_broke qs j v m f st hb]


/-- Segments that are empty, or literal and equal to the path segment at the
same index, leave the parameter map alone. -/
theorem segLoop_literal (qs : List GoString) (rest : List GoString) :
    ∀ (j : Nat) (m : GoMap) (f : Bool),
      (∀ i v, rest[i]? = some v → v ≠ [] →
        ¬ (['{'] <+: v ∧ ['}'] <:+ v) ∧ qs[j + i]? = some v) →
      segLoop qs j rest m f = Outcome.ok (m, f || rest.any (fun v => decide (v ≠ []))) := by
  induction rest with
  | nil => intro j m f _; simp [segLoop]
  | cons v rest ih =>
    intro j m f h
    rw [segLoop_cons]
    have hrest : ∀ i w, rest[i]? = some w → w ≠ [] →
        ¬ (['{'] <+: w ∧ ['}'] <:+ w) ∧ qs[j + 1 + i]? = some w := by
      intro i w hi hw
      have := h (i + 1) w (by simpa using hi) hw
      rw [show j + 1 + i = j + (i + 1) by omega]
      exact this
    by_cases hv : v = []
    · subst hv
      rw [segBody_nil]
      simp only []
      rw [ih (j + 1) m f hrest]
      simp
    · have h0 := h 0 v (by simp) hv
      rw [segBody_literal_eq qs j v m f hv h0.1 (by simpa using h0.2)]
      simp only []
      rw [ih (j + 1) m true hrest]
      simp [hv]

theorem segBody_congr (q1 q2 : List GoString) (j : Nat) (v : GoString) (m : GoMap)
    (f : Bool) (h : v ≠ [] → q1[j]? = q2[j]?) :
    segBody q1 j v m f = segBody q2 j v m f := by
  by_cases hv : v = []
  · subst hv; simp [segBody_nil]
  · unfold segBody elemAt
    rw [h hv]

theorem segLoop_congr (q1 q2 : List GoString) (rest : List GoString) :
    ∀ (j : Nat) (m : GoMap) (f : Bool),
      (∀ i v, rest[i]? = some v → v ≠ [] → q1[j + i]? = q2[j + i]?) →
      segLoop q1 j rest m f = segLoop q2 j rest m f := by
  induction rest with
  | nil => intro j m f _; simp [segLoop]
  | cons v rest ih =>
    intro j m f h
    rw [segLoop_cons, segLoop_cons]
    rw [segBody_congr q1 q2 j v m f (fun hv => by simpa using h 0 v (by simp) hv)]
    cases segBody q2 j v m f with
    | panic e => rfl
    | ok st =>
      simp only []
      apply ih
      intro i w hi hw
      have := h (i + 1) w (by simpa using hi) hw
      rw [show j + 1 + i = j + (i + 1) by omega]
      exact this

theorem lookupHandler_single (P : GoString) (h : HandlerFunc) :
    lookupHandler [(P, h)] P = some h := by
  simp [lookupHandler]

theorem validate_single (P Q : GoString) (h : HandlerFunc) :
    validate [(P, h)] Q =
      match segLoop (strSplit Q ['/']) 0 (strSplit P ['/']) [] false with
      | Outcome.panic e => Outcome.panic e
      | Outcome.ok (m, flag) => if flag then Outcome.ok (some m, h) else Outcome.ok (none, none) := by
  simp only [validate, List.map, routeLoop, lookupHandler_single]

/-! ## The claims -/

/-- C1: a literal pattern segment that differs from the path segment does not
make `validate` abandon the pattern: with only `/a/b` registered, the path
`/c/d` makes `validate` panic at `strs[1]`, and `handle` panics with it instead
of running the fallback close-handler. -/
theorem C1_literal_mismatch_panics :
    validate [("/a/b".toList, some 1)] "/c/d".toList
        = Outcome.panic Panic.indexOutOfRange ∧
      handle plainLib [("/a/b".toList, some 1)] "GET /c/d HTTP/1.1\r\n\r\n".toList
        = HandleResult.panicked Panic.indexOutOfRange :=
  ⟨by decide, by decide⟩

/-- C2, counterexample: the segment counts of `/a` and `/a/b`, and of `/a/`
and `/a`, differ, yet `validate` resolves the path to the handler of the only
registered pattern. -/
theorem C2_counterexample :
    ((strSplit "/a".toList ['/']).length ≠ (strSplit "/a/b".toList ['/']).length ∧
      validate [("/a".toList, some 1)] "/a/b".toList = Outcome.ok (some [], some 1)) ∧
    ((strSplit "/a/".toList ['/']).length ≠ (strSplit "/a".toList ['/']).length ∧
      validate [("/a/".toList, some 1)] "/a".toList = Outcome.ok (some [], some 1)) :=
  ⟨⟨by decide, by decide⟩, ⟨by decide, by decide⟩⟩

/-- C2, amended: `validate` compares no segment counts.  With `P` the only
registered pattern, two paths that carry the same segment at every index where
`P` has a non-empty segment get the same result, whatever their numbers of
segments. -/
theorem C2_validate_ignores_segment_count (P Q1 Q2 : GoString) (h : HandlerFunc)
    (hagree : ∀ (j : Nat) (v : GoString), (strSplit P ['/'])[j]? = some v → v ≠ [] →
      (strSplit Q1 ['/'])[j]? = (strSplit Q2 ['/'])[j]?) :
    validate [(P, h)] Q1 = validate [(P, h)] Q2 := by
  rw [validate_single, validate_single]
  rw [segLoop_congr (strSplit Q1 ['/']) (strSplit Q2 ['/']) (strSplit P ['/']) 0 [] false
    (fun i v hi hv => by simpa using hagree i v hi hv)]

/-- C2, witness: pattern `/a`, paths `/a/b` and `/a`. -/
theorem C2_validate_ignores_segment_count_witness :
    (strSplit "/a/b".toList ['/']).length ≠ (strSplit "/a".toList ['/']).length ∧
    validate [("/a".toList, some 1)] "/a/b".toList
      = validate [("/a".toList, some 1)] "/a".toList :=
  ⟨by decide,
   C2_validate_ignores_segment_count "/a".toList "/a/b".toList "/a".toList (some 1) (by
    intro j v hj _
    have hP : strSplit "/a".toList ['/'] = [[], ['a']] := by decide
    have h1 : strSplit "/a/b".toList ['/'] = [[], ['a'], ['b']] := by decide
    have h2 : strSplit "/a".toList ['/'] = [[], ['a']] := by decide
    rw [hP] at hj
    rw [h1, h2]
    match j with
    | 0 => rfl
    | 1 => rfl
    | j + 2 => simp at hj)⟩

/-- C3: `validate` is not safe for every input.  A path shorter than the
pattern is indexed out of range (`pRotes[j]`), a literal mismatch indexes
`strs[1]` out of range, the pattern `a{` slices `strs[1][:len-1]` with a
negative bound, and a prefix longer than the path segment slices
`pRotes[j][len(strs[0]):]` out of range. -/
theorem C3_validate_panics :
    validate [("/a/b".toList, some 1)] "/a".toList = Outcome.panic Panic.indexOutOfRange ∧
    validate [("/a".toList, some 1)] "/b".toList = Outcome.panic Panic.indexOutOfRange ∧
    validate [("a\x7b".toList, some 1)] "b".toList = Outcome.panic Panic.sliceOutOfRange ∧
    validate [("/abc\x7bx\x7d".toList, some 1)] "/a".toList
      = Outcome.panic Panic.sliceOutOfRange :=
  ⟨by decide, by decide, by decide, by decide⟩

/-- C4: a pattern with a non-empty segment and no segment that both starts
with `{` and ends with `}`, registered alone, resolves the path equal to it to
its handler, with an empty parameter map. -/
theorem C4_validate_pattern_itself (P : GoString) (h : HandlerFunc)
    (hne : ∃ v ∈ strSplit P ['/'], v ≠ [])
    (hlit : ∀ v ∈ strSplit P ['/'], ¬ (['{'] <+: v ∧ ['}'] <:+ v)) :
    validate [(P, h)] P = Outcome.ok (some [], h) := by
  rw [validate_single]
  rw [segLoop_literal (strSplit P ['/']) (strSplit P ['/']) 0 [] false
    (fun i v hi _ => ⟨hlit v (List.getElem?_mem hi), by simpa using hi⟩)]
  have hany : (strSplit P ['/']).any (fun v => decide (v ≠ [])) = true := by
    obtain ⟨v, hv, hvne⟩ := hne
    exact List.any_eq_true.mpr ⟨v, hv, by simpa using hvne⟩
  rw [hany]
  simp

/-- C4, witness: pattern `/a/b`, path `/a/b`. -/
theorem C4_validate_pattern_itself_witness :
    (∃ v ∈ strSplit "/a/b".toList ['/'], v ≠ []) ∧
    (∀ v ∈ strSplit "/a/b".toList ['/'], ¬ (['{'] <+: v ∧ ['}'] <:+ v)) ∧
    validate [("/a/b".toList, some 1)] "/a/b".toList = Outcome.ok (some [], some 1) :=
  ⟨by decide, by decide,
   C4_validate_pattern_itself "/a/b".toList (some 1) (by decide) (by decide)⟩


theorem mapGet_mapSet_same (m : GoMap) (k v : GoString) :
    mapGet (mapSet m k v) k = some v := by
  simp [mapGet, mapSet]

theorem mapGet_mapSet_other (m : GoMap) (k v k1 : GoString) (hk : k1 ≠ k) :
    mapGet (mapSet m k v) k1 = mapGet m k1 := by
  have hk2 : ¬ k = k1 := fun e => hk e.symm
  simp only [mapGet, mapSet, List.find?_cons, hk2, decide_False]
  congr 1
  rw [List.find?_filter]
  congr 1
  funext a
  by_cases h : a.1 = k1
  · simp [h, hk]
  · simp [h]

/-- The source test for a named segment holds exactly for `{name}`. -/
theorem wrapped_iff_named (v : GoString) :
    (['{'] <+: v ∧ ['}'] <:+ v) ↔ ∃ name : GoString, v = '{' :: (name ++ ['}']) := by
  constructor
  · rintro ⟨⟨t, ht⟩, ⟨s, hs⟩⟩
    subst ht
    cases s with
    | nil => simp at hs
    | cons c s =>
      simp at hs
      exact ⟨s, by simp [hs.2]⟩
  · rintro ⟨name, rfl⟩
    exact ⟨⟨name ++ ['}'], rfl⟩, ⟨'{' :: name, by simp⟩⟩

theorem segBody_named (qs : List GoString) (j : Nat) (name p : GoString) (m : GoMap)
    (f : Bool) (hq : qs[j]? = some p) :
    segBody qs j ('{' :: (name ++ ['}'])) m f = Outcome.ok ⟨mapSet m name p, true, false⟩ := by
  have hv : ('{' :: (name ++ ['}'])) ≠ [] := by simp
  have hw : (('{' :: (name ++ ['}'])).take 1 = ['{'] ∧
      ('{' :: (name ++ ['}'])).drop (('{' :: (name ++ ['}'])).length - 1) = ['}']) := by
    rw [wrapped_iff, wrapped_iff_named]; exact ⟨name, rfl⟩
  have hn : substr ('{' :: (name ++ ['}'])) 1 ((('{' :: (name ++ ['}'])).length : Int) - 1)
      = Outcome.ok name := by
    have e1 : ((('{' :: (name ++ ['}'])).length : Int) - 1) = (name.length : Int) + 1 := by
      simp
    rw [e1]
    have e2 : ((name.length : Int) + 1 - 1).toNat = name.length := by omega
    have c1 : (1 : Int) ≤ (name.length : Int) + 1 := by omega
    have c2 : (name.length : Int) + 1 ≤ ((('{' :: (name ++ ['}'])).length : Nat) : Int) := by
      simp
    simp only [substr, c1, c2, e2]
    simp
  unfold segBody
  rw [if_pos hv, substr_first _ hv, substr_last _ hv]
  simp only []
  rw [if_pos hw, hn, elemAt_some _ _ _ hq]


/-- The inner loop on segments that are empty, `{name}` with distinct names, or
literal and equal to the path segment: every name is bound to the path segment
at its index, and no other key is touched. -/
theorem segLoop_named (qs : List GoString) (rest : List GoString) :
    ∀ (j : Nat) (m : GoMap) (f : Bool),
      (∀ (i : Nat) (v : GoString), rest[i]? = some v → v ≠ [] →
        (¬ ∃ name : GoString, v = '{' :: (name ++ ['}'])) → qs[j + i]? = some v) →
      (∀ (i : Nat) (v : GoString), rest[i]? = some v → ∃ p, qs[j + i]? = some p) →
      (∀ (i i1 : Nat) (name : GoString), rest[i]? = some ('{' :: (name ++ ['}'])) →
        rest[i1]? = some ('{' :: (name ++ ['}'])) → i = i1) →
      ∃ m1, segLoop qs j rest m f
            = Outcome.ok (m1, f || rest.any (fun v => decide (v ≠ []))) ∧
        (∀ (i : Nat) (name : GoString), rest[i]? = some ('{' :: (name ++ ['}'])) →
          ∃ p, qs[j + i]? = some p ∧ mapGet m1 name = some p) ∧
        (∀ k : GoString, (∀ i : Nat, rest[i]? ≠ some ('{' :: (k ++ ['}']))) →
          mapGet m1 k = mapGet m k) := by
  induction rest with
  | nil =>
    intro j m f _ _ _
    exact ⟨m, by simp [segLoop], by simp, fun _ _ => rfl⟩
  | cons v rest ih =>
    intro j m f hlit hex hdist
    have hlit1 : ∀ (i : Nat) (w : GoString), rest[i]? = some w → w ≠ [] →
        (¬ ∃ name : GoString, w = '{' :: (name ++ ['}'])) → qs[j + 1 + i]? = some w := by
      intro i w hi hw hn
      rw [show j + 1 + i = j + (i + 1) by omega]
      exact hlit (i + 1) w (by simpa using hi) hw hn
    have hex1 : ∀ (i : Nat) (w : GoString), rest[i]? = some w →
        ∃ p, qs[j + 1 + i]? = some p := by
      intro i w hi
      rw [show j + 1 + i = j + (i + 1) by omega]
      exact hex (i + 1) w (by simpa using hi)
    have hdist1 : ∀ (i i1 : Nat) (name : GoString),
        rest[i]? = some ('{' :: (name ++ ['}'])) →
        rest[i1]? = some ('{' :: (name ++ ['}'])) → i = i1 := by
      intro i i1 name hi hi1
      have := hdist (i + 1) (i1 + 1) name (by simpa using hi) (by simpa using hi1)
      omega
    rw [segLoop_cons]
    by_cases hv : v = []
    · subst hv
      rw [segBody_nil]
      obtain ⟨m1, hrun, hbind, hkeep⟩ := ih (j + 1) m f hlit1 hex1 hdist1
      refine ⟨m1, ?_, ?_, ?_⟩
      · simp only []; rw [hrun]; simp
      · intro i name hi
        cases i with
        | zero => simp at hi
        | succ i =>
          rw [show j + (i + 1) = j + 1 + i by omega]
          exact hbind i name (by simpa using hi)
      · intro k hk
        exact hkeep k (fun i hi => hk (i + 1) (by simpa using hi))
    · by_cases hn : ∃ name : GoString, v = '{' :: (name ++ ['}'])
      · obtain ⟨name, rfl⟩ := hn
        obtain ⟨p, hp⟩ := hex 0 ('{' :: (name ++ ['}'])) (by simp)
        rw [segBody_named qs j name p m f (by simpa using hp)]
        obtain ⟨m1, hrun, hbind, hkeep⟩ :=
          ih (j + 1) (mapSet m name p) true hlit1 hex1 hdist1
        refine ⟨m1, ?_, ?_, ?_⟩
        · simp only []; rw [hrun]; simp
        · intro i nm hi
          cases i with
          | zero =>
            have hnm : nm = name := by
              have := hi
              simp at this
              exact this.symm
            subst hnm
            refine ⟨p, hp, ?_⟩
            rw [hkeep nm (fun i hi1 => by
              have := hdist 0 (i + 1) nm (by simp) (by simpa using hi1)
              omega)]
            exact mapGet_mapSet_same m nm p
          | succ i =>
            rw [show j + (i + 1) = j + 1 + i by omega]
            exact hbind i nm (by simpa using hi)
        · intro k hk
          rw [hkeep k (fun i hi => hk (i + 1) (by simpa using hi))]
          apply mapGet_mapSet_other
          intro hkn
          subst hkn
          exact hk 0 (by simp)
      · have hq := hlit 0 v (by simp) hv hn
        have hw : ¬ (['{'] <+: v ∧ ['}'] <:+ v) := by
          rw [wrapped_iff_named]; exact hn
        rw [segBody_literal_eq qs j v m f hv hw (by simpa using hq)]
        obtain ⟨m1, hrun, hbind, hkeep⟩ := ih (j + 1) m true hlit1 hex1 hdist1
        refine ⟨m1, ?_, ?_, ?_⟩
        · simp only []; rw [hrun]; simp [hv]
        · intro i name hi
          cases i with
          | zero =>
            exfalso
            apply hn
            exact ⟨name, by simpa using hi⟩
          | succ i =>
            rw [show j + (i + 1) = j + 1 + i by omega]
            exact hbind i name (by simpa using hi)
        · intro k hk
          exact hkeep k (fun i hi => hk (i + 1) (by simpa using hi))

/-- C5: a single registered pattern whose segments are empty, literal, or
`{name}` with pairwise distinct names (one segment at least non-empty), and a
path with as many segments that equals the pattern at every literal position:
`validate` returns the pattern's handler and a parameter map that binds each
name to the whole path segment at its index and has no other key. -/
theorem C5_validate_named (P Q : GoString) (h : HandlerFunc)
    (hlen : (strSplit P ['/']).length = (strSplit Q ['/']).length)
    (hne : ∃ v ∈ strSplit P ['/'], v ≠ [])
    (hlit : ∀ (j : Nat) (v : GoString), (strSplit P ['/'])[j]? = some v → v ≠ [] →
      (¬ ∃ name : GoString, v = '{' :: (name ++ ['}'])) → (strSplit Q ['/'])[j]? = some v)
    (hdist : ∀ (i j : Nat) (name : GoString),
      (strSplit P ['/'])[i]? = some ('{' :: (name ++ ['}'])) →
      (strSplit P ['/'])[j]? = some ('{' :: (name ++ ['}'])) → i = j) :
    ∃ m : GoMap, validate [(P, h)] Q = Outcome.ok (some m, h) ∧
      (∀ (j : Nat) (name : GoString), (strSplit P ['/'])[j]? = some ('{' :: (name ++ ['}'])) →
        ∃ p, (strSplit Q ['/'])[j]? = some p ∧ mapGet m name = some p) ∧
      (∀ k : GoString, mapGet m k ≠ none →
        ∃ j : Nat, (strSplit P ['/'])[j]? = some ('{' :: (k ++ ['}']))) := by
  have hex : ∀ (i : Nat) (v : GoString), (strSplit P ['/'])[i]? = some v →
      ∃ p, (strSplit Q ['/'])[0 + i]? = some p := by
    intro i v hi
    have hlt : i < (strSplit Q ['/']).length := by
      rw [← hlen]
      exact (List.getElem?_eq_some_iff.mp hi).1
    exact ⟨(strSplit Q ['/'])[i], by simp [List.getElem?_eq_getElem hlt]⟩
  obtain ⟨m, hrun, hbind, hkeep⟩ :=
    segLoop_named (strSplit Q ['/']) (strSplit P ['/']) 0 [] false
      (fun i v hi hv hn => by simpa using hlit i v hi hv hn) hex hdist
  have hany : (strSplit P ['/']).any (fun v => decide (v ≠ [])) = true := by
    obtain ⟨v, hv, hvne⟩ := hne
    exact List.any_eq_true.mpr ⟨v, hv, by simpa using hvne⟩
  refine ⟨m, ?_, ?_, ?_⟩
  · rw [validate_single, hrun, hany]
    simp
  · intro j name hj
    simpa using hbind j name hj
  · intro k hk
    by_contra hno
    apply hk
    rw [hkeep k (fun i hi => hno ⟨i, hi⟩)]
    rfl


/-- C5, witness: `/users/{id}` with `/users/42` gives `{id: "42"}`. -/
theorem C5_validate_named_witness :
    (∃ m : GoMap, validate [("/users/\x7bid\x7d".toList, some 1)] "/users/42".toList
        = Outcome.ok (some m, some 1) ∧
      (∀ (j : Nat) (name : GoString),
        (strSplit "/users/\x7bid\x7d".toList ['/'])[j]? = some ('{' :: (name ++ ['}'])) →
        ∃ p, (strSplit "/users/42".toList ['/'])[j]? = some p ∧ mapGet m name = some p) ∧
      (∀ k : GoString, mapGet m k ≠ none →
        ∃ j : Nat, (strSplit "/users/\x7bid\x7d".toList ['/'])[j]? = some ('{' :: (k ++ ['}'])))) ∧
    validate [("/users/\x7bid\x7d".toList, some 1)] "/users/42".toList
      = Outcome.ok (some [("id".toList, "42".toList)], some 1) := by
  have hP : strSplit "/users/\x7bid\x7d".toList ['/']
      = [[], "users".toList, '{' :: ("id".toList ++ ['}'])] := by decide
  have hQ : strSplit "/users/42".toList ['/'] = [[], "users".toList, "42".toList] := by decide
  refine ⟨C5_validate_named "/users/\x7bid\x7d".toList "/users/42".toList (some 1)
    (by decide) (by decide) ?_ ?_, by decide⟩
  · intro j v hj hv hn
    rw [hP] at hj
    rw [hQ]
    match j with
    | 0 => simp at hj; exact absurd hj hv
    | 1 => simp at hj; subst hj; rfl
    | 2 => simp at hj; subst hj; exact absurd ⟨"id".toList, rfl⟩ hn
    | j + 3 => simp at hj
  · intro i j name hi hj
    rw [hP] at hi hj
    match i, j with
    | 0, _ => simp at hi
    | 1, _ => simp at hi
    | _, 0 => simp at hj
    | _, 1 => simp at hj
    | 2, 2 => rfl
    | i + 3, _ => simp at hi
    | _, j + 3 => simp at hj

theorem findIndex_brace_none (s : GoString) (hs : '{' ∉ s) :
    findIndex s ['{'] = none := by
  induction s with
  | nil => simp [findIndex]
  | cons c t ih =>
    have hc : c ≠ '{' := fun e => hs (by simp [e])
    have ht : '{' ∉ t := fun e => hs (by simp [e])
    have hc2 : ¬ '{' = c := fun e => hc e.symm
    simp [findIndex, hc, hc2, ih ht]

theorem findIndex_brace_append (L r : GoString) (hL : '{' ∉ L) :
    findIndex (L ++ '{' :: r) ['{'] = some L.length := by
  induction L with
  | nil => simp [findIndex]
  | cons c t ih =>
    have hc : c ≠ '{' := fun e => hL (by simp [e])
    have ht : '{' ∉ t := fun e => hL (by simp [e])
    have hc2 : ¬ '{' = c := fun e => hc e.symm
    simp [findIndex, hc, hc2, ih ht]

theorem genSplit_of_none (sep : GoString) (n : Nat) (s : GoString)
    (h : findIndex s sep = none) : genSplit sep n s = [s] := by
  cases n with
  | zero => rfl
  | succ n => simp [genSplit, h]

/-- Result of `strings.Split(v, "{")` on a segment `L{name}`. -/
theorem strSplit_prefixed (L name : GoString) (hL : '{' ∉ L) (hn : '{' ∉ name) :
    strSplit (L ++ '{' :: (name ++ ['}'])) ['{'] = [L, name ++ ['}']] := by
  have hlen : (L ++ '{' :: (name ++ ['}'])).length = (L.length + name.length + 1) + 1 := by
    simp; omega
  have hrest : '{' ∉ name ++ ['}'] := by simp [hn]
  rw [strSplit, hlen, genSplit, findIndex_brace_append L _ hL]
  simp only [List.length_singleton]
  rw [List.take_left, List.drop_append, List.drop_one, List.tail_cons,
    genSplit_of_none _ _ _ (findIndex_brace_none _ hrest)]

theorem segBody_prefixed (qs : List GoString) (j : Nat) (L name p : GoString) (m : GoMap)
    (f : Bool) (hL : L ≠ []) (hLb : '{' ∉ L) (hnb : '{' ∉ name)
    (hq : qs[j]? = some p) (hpv : p ≠ L ++ '{' :: (name ++ ['}']))
    (hlen : L.length ≤ p.length) :
    segBody qs j (L ++ '{' :: (name ++ ['}'])) m f
      = Outcome.ok ⟨mapSet m name (p.drop L.length), true, false⟩ := by
  have hv : L ++ '{' :: (name ++ ['}']) ≠ [] := by simp
  have hw : ¬ ((L ++ '{' :: (name ++ ['}'])).take 1 = ['{'] ∧
      (L ++ '{' :: (name ++ ['}'])).drop ((L ++ '{' :: (name ++ ['}'])).length - 1) = ['}']) := by
    intro hw
    cases L with
    | nil => exact hL rfl
    | cons c t =>
      have := hw.1
      simp at this
      exact hLb (by simp [this])
  have hkey : substr (name ++ ['}']) 0 (((name ++ ['}']).length : Int) - 1)
      = Outcome.ok name := by
    have e1 : (((name ++ ['}']).length : Int) - 1) = (name.length : Int) := by simp
    rw [e1]
    have c2 : (name.length : Int) ≤ (((name ++ ['}']).length : Nat) : Int) := by simp
    simp only [substr, c2]
    simp
  have hval : substr p (L.length : Int) (p.length : Int) = Outcome.ok (p.drop L.length) := by
    have c1 : (L.length : Int) ≤ (p.length : Int) := by omega
    have e1 : ((p.length : Int) - (L.length : Int)).toNat = p.length - L.length := by omega
    simp only [substr, c1, e1]
    simp
  unfold segBody
  rw [if_pos hv, substr_first _ hv, substr_last _ hv]
  simp only []
  rw [if_neg hw, elemAt_some _ _ _ hq]
  simp only []
  rw [if_pos hpv, strSplit_prefixed L name hLb hnb]
  simp only [elemAt, List.length_cons, List.length_nil, gt_iff_lt, Nat.zero_lt_succ,
    if_true, List.getElem?_cons_succ, List.getElem?_cons_zero]
  rw [hkey]
  simp only []
  rw [hval]


/-- The inner loop on a pattern with one segment `L{name}` at index `k` of the
rest, all other segments being empty or literal and equal to the path. -/
theorem segLoop_prefixed_at (qs : List GoString) (L name p : GoString)
    (hL : L ≠ []) (hLb : '{' ∉ L) (hnb : '{' ∉ name)
    (hpv : p ≠ L ++ '{' :: (name ++ ['}'])) (hlen : L.length ≤ p.length)
    (rest : List GoString) :
    ∀ (k j : Nat) (m : GoMap) (f : Bool),
      rest[k]? = some (L ++ '{' :: (name ++ ['}'])) → qs[j + k]? = some p →
      (∀ (i : Nat) (v : GoString), i ≠ k → rest[i]? = some v → v ≠ [] →
        ¬ (['{'] <+: v ∧ ['}'] <:+ v) ∧ qs[j + i]? = some v) →
      segLoop qs j rest m f = Outcome.ok (mapSet m name (p.drop L.length), true) := by
  induction rest with
  | nil => intro k j m f hk; simp at hk
  | cons v rest ih =>
    intro k j m f hk hq hother
    rw [segLoop_cons]
    cases k with
    | zero =>
      have hv : v = L ++ '{' :: (name ++ ['}']) := by simpa using hk
      subst hv
      rw [segBody_prefixed qs j L name p m f hL hLb hnb (by simpa using hq) hpv hlen]
      simp only []
      rw [segLoop_literal qs rest (j + 1) _ true (fun i w hi hw => by
        have := hother (i + 1) w (by omega) (by simpa using hi) hw
        rw [show j + 1 + i = j + (i + 1) by omega]
        exact this)]
      simp
    | succ k =>
      have hrec : ∀ (m1 : GoMap) (f1 : Bool),
          segLoop qs (j + 1) rest m1 f1
            = Outcome.ok (mapSet m1 name (p.drop L.length), true) := by
        intro m1 f1
        apply ih k (j + 1) m1 f1 (by simpa using hk)
          (by rw [show j + 1 + k = j + (k + 1) by omega]; exact hq)
        intro i w hik hi hw
        have := hother (i + 1) w (by omega) (by simpa using hi) hw
        rw [show j + 1 + i = j + (i + 1) by omega]
        exact this
      by_cases hv : v = []
      · subst hv
        rw [segBody_nil]
        exact hrec m f
      · have h0 := hother 0 v (by omega) (by simp) hv
        rw [segBody_literal_eq qs j v m f hv h0.1 (by simpa using h0.2)]
        exact hrec m true

/-- C6: a pattern segment `L{name}` (`L` non-empty, no `{` in `L` or `name`) met
with a path segment `p` that differs from it and has at least `len(L)` bytes
binds `name` to `p` without its first `len(L)` bytes, whether or not `p` begins
with `L`: this is what the loop body does in every state, and what `validate`
returns for a single registered pattern whose other segments are empty or
literal and equal to the path. -/
theorem C6_validate_prefixed (L name p : GoString)
    (hL : L ≠ []) (hLb : '{' ∉ L) (hnb : '{' ∉ name)
    (hpv : p ≠ L ++ '{' :: (name ++ ['}'])) (hlen : L.length ≤ p.length) :
    (∀ (qs : List GoString) (j : Nat) (m : GoMap) (f : Bool), qs[j]? = some p →
      segBody qs j (L ++ '{' :: (name ++ ['}'])) m f
        = Outcome.ok ⟨mapSet m name (p.drop L.length), true, false⟩) ∧
    (∀ (P Q : GoString) (h : HandlerFunc) (j : Nat),
      (strSplit P ['/'])[j]? = some (L ++ '{' :: (name ++ ['}'])) →
      (strSplit Q ['/'])[j]? = some p →
      (∀ (i : Nat) (v : GoString), i ≠ j → (strSplit P ['/'])[i]? = some v → v ≠ [] →
        ¬ (['{'] <+: v ∧ ['}'] <:+ v) ∧ (strSplit Q ['/'])[i]? = some v) →
      validate [(P, h)] Q = Outcome.ok (some [(name, p.drop L.length)], h)) := by
  refine ⟨fun qs j m f hq => segBody_prefixed qs j L name p m f hL hLb hnb hq hpv hlen, ?_⟩
  intro P Q h j hP hQ hother
  rw [validate_single,
    segLoop_prefixed_at (strSplit Q ['/']) L name p hL hLb hnb hpv hlen (strSplit P ['/'])
      j 0 [] false hP (by simpa using hQ) (fun i v hi hv hne => by
        simpa using hother i v hi hv hne)]
  simp [mapSet]

/-- C6, witness: `/files/v{id}` with `/files/x7` gives `{id: "7"}` although `x7`
does not begin with `v`. -/
theorem C6_validate_prefixed_witness :
    validate [("/files/v\x7bid\x7d".toList, some 1)] "/files/x7".toList
      = Outcome.ok (some [("id".toList, "7".toList)], some 1) := by
  have hP : strSplit "/files/v\x7bid\x7d".toList ['/']
      = [[], "files".toList, ['v'] ++ '{' :: ("id".toList ++ ['}'])] := by decide
  have hQ : strSplit "/files/x7".toList ['/'] = [[], "files".toList, "x7".toList] := by decide
  have key := (C6_validate_prefixed ['v'] "id".toList "x7".toList
    (by decide) (by decide) (by decide) (by decide) (by decide)).2
      "/files/v\x7bid\x7d".toList "/files/x7".toList (some 1) 2
      (by rw [hP]; rfl) (by rw [hQ]; rfl) (by
        intro i v hi hv hne
        rw [hP] at hv
        rw [hQ]
        match i with
        | 0 => simp at hv; exact absurd hv hne
        | 1 => simp at hv; subst hv; exact ⟨by decide, rfl⟩
        | 2 => exact absurd rfl hi
        | i + 3 => simp at hv)
  exact key

/-- The same pattern with a path segment that does begin with the prefix. -/
theorem validate_prefixed_v7 :
    validate [("/files/v\x7bid\x7d".toList, some 1)] "/files/v7".toList
      = Outcome.ok (some [("id".toList, "7".toList)], some 1) := by
  decide


/-! ## Request parsing -/

theorem findIndex_eq_none_iff (sep : GoString) (s : GoString) :
    findIndex s sep = none ↔ ¬ sep <:+: s := by
  induction s with
  | nil =>
    cases sep with
    | nil => simp [findIndex]
    | cons c t => simp [findIndex]
  | cons c t ih =>
    rw [List.infix_cons_iff]
    by_cases hp : sep.isPrefixOf (c :: t) = true
    · have hp2 : sep <+: c :: t := List.isPrefixOf_iff_prefix.mp hp
      simp [findIndex, hp, hp2]
    · have hp2 : ¬ sep <+: c :: t := fun e => hp (List.isPrefixOf_iff_prefix.mpr e)
      have hp3 : sep.isPrefixOf (c :: t) = false := by
        cases hb : sep.isPrefixOf (c :: t) with
        | false => rfl
        | true => exact absurd hb hp
      simp [findIndex, hp3, hp2, ih]

theorem bytesIndex_of_absent (sep s : GoString) (h : ¬ sep <:+: s) :
    bytesIndex s sep = -1 := by
  simp [bytesIndex, (findIndex_eq_none_iff sep s).mpr h]

theorem bytesIndex_of_present (sep s : GoString) (h : sep <:+: s) :
    0 ≤ bytesIndex s sep := by
  cases hf : findIndex s sep with
  | none => exact absurd h ((findIndex_eq_none_iff sep s).mp hf)
  | some i => simp [bytesIndex, hf]

/-- C7: a buffer with a CRLF and no CRLFCRLF does not end in a parse failure:
the second check tests `endIndex` again instead of `lineIndex`, and `handle`
slices `data[endIndex:lineIndex]` with `lineIndex = -1`, which panics. -/
theorem C7_missing_separator_panics (lib : UrlLib) (handlers : Handlers) (data : GoString)
    (hcrlf : ['\r', '\n'] <:+: data) (hsep : ¬ ['\r', '\n', '\r', '\n'] <:+: data) :
    handle lib handlers data = HandleResult.panicked Panic.sliceOutOfRange := by
  have h1 := bytesIndex_of_present _ _ hcrlf
  have h2 := bytesIndex_of_absent _ _ hsep
  have h3 : bytesIndex data ['\r', '\n'] ≠ -1 := by omega
  have h4 : ¬ bytesIndex data ['\r', '\n'] ≤ -1 := by omega
  simp [handle, h2, h3, substr, h4]

/-- C7, witness: the buffer `GET / HTTP/1.1\r\n`. -/
theorem C7_missing_separator_panics_witness :
    handle plainLib [("/".toList, some 1)] "GET / HTTP/1.1\r\n".toList
      = HandleResult.panicked Panic.sliceOutOfRange :=
  C7_missing_separator_panics plainLib [("/".toList, some 1)] "GET / HTTP/1.1\r\n".toList
    (by decide) (by decide)

theorem elemAt_panic {α : Type} (xs : List α) (i : Nat) (e : Panic)
    (h : elemAt xs i = Outcome.panic e) : e = Panic.indexOutOfRange := by
  simp only [elemAt] at h
  split at h
  · exact absurd h (by simp)
  · injection h with h; exact h.symm

theorem headerLoop_bad_line (headers : List GoString) :
    ∀ m : GoMap, (∃ v ∈ headers, ¬ [':', ' '] <:+: v) →
      headerLoop headers m = Outcome.panic Panic.indexOutOfRange := by
  induction headers with
  | nil => intro m h; simp at h
  | cons v rest ih =>
    intro m h
    unfold headerLoop
    by_cases hv : [':', ' '] <:+: v
    · have hrest : ∃ w ∈ rest, ¬ [':', ' '] <:+: w := by
        obtain ⟨w, hw, hbad⟩ := h
        rcases List.mem_cons.mp hw with rfl | hw
        · exact absurd hv hbad
        · exact ⟨w, hw, hbad⟩
      simp only []
      cases h0 : elemAt (strSplit v [':', ' ']) 0 with
      | panic e => rw [elemAt_panic _ _ _ h0]
      | ok k =>
        simp only []
        cases h1 : elemAt (strSplit v [':', ' ']) 1 with
        | panic e => rw [elemAt_panic _ _ _ h1]
        | ok val => exact ih _ hrest
    · have hs : strSplit v [':', ' '] = [v] :=
        genSplit_of_none _ _ _ ((findIndex_eq_none_iff _ _).mpr hv)
      simp [hs, elemAt]


theorem sliceFrom_split (s sep : GoString) :
    sliceFrom (strSplit s sep) 1 = Outcome.ok ((strSplit s sep).drop 1) := by
  have := strSplit_length_pos s sep
  simp only [sliceFrom]
  rw [if_pos (by omega)]

/-- The part of `handle` behind the two `bytes.Index` calls, once the first
CRLF is found and the header region is sliced. -/
theorem handle_eq_of_region (lib : UrlLib) (handlers : Handlers) (data region : GoString)
    (hcrlf : bytesIndex data ['\r', '\n'] ≠ -1)
    (hreg : substr data (bytesIndex data ['\r', '\n'])
      (bytesIndex data ['\r', '\n', '\r', '\n']) = Outcome.ok region) :
    handle lib handlers data =
      match headerLoop ((strSplit region ['\r', '\n']).drop 1) [] with
      | Outcome.panic e => HandleResult.panicked e
      | Outcome.ok headerTo =>
        match substr data (bytesIndex data ['\r', '\n', '\r', '\n']) (data.length : Int) with
        | Outcome.panic e => HandleResult.panicked e
        | Outcome.ok newData =>
          handleLine lib handlers data (bytesIndex data ['\r', '\n']) headerTo
            (strTrim newData ['\r', '\n']) := by
  simp only [handle, hcrlf, if_false, hreg, sliceFrom_split]

/-- C8: a header line without `: ` does not yield a parse failure: the split
result has one element and `headerLine[1]` panics. -/
theorem C8_header_without_separator_panics (lib : UrlLib) (handlers : Handlers)
    (data region : GoString)
    (hcrlf : bytesIndex data ['\r', '\n'] ≠ -1)
    (hreg : substr data (bytesIndex data ['\r', '\n'])
      (bytesIndex data ['\r', '\n', '\r', '\n']) = Outcome.ok region)
    (hbad : ∃ v ∈ (strSplit region ['\r', '\n']).drop 1, ¬ [':', ' '] <:+: v) :
    handle lib handlers data = HandleResult.panicked Panic.indexOutOfRange := by
  rw [handle_eq_of_region lib handlers data region hcrlf hreg,
    headerLoop_bad_line _ [] hbad]

/-- C8, witness: the buffer `GET / HTTP/1.1\r\nHost\r\n\r\n`. -/
theorem C8_header_without_separator_panics_witness :
    handle plainLib [("/".toList, some 1)] "GET / HTTP/1.1\r\nHost\r\n\r\n".toList
      = HandleResult.panicked Panic.indexOutOfRange :=
  C8_header_without_separator_panics plainLib [("/".toList, some 1)]
    "GET / HTTP/1.1\r\nHost\r\n\r\n".toList "\r\nHost".toList
    (by decide) (by decide) (by decide)

/-- C9: a malformed request line does not always end in a parse failure.  The
headers are parsed before the request line is looked at, so a request line of
two tokens, or with version `HTTP/1.0`, makes `handle` panic when the
separator is missing or a header line has no `: `. -/
theorem C9_bad_request_line_panics :
    handle plainLib [("/".toList, some 1)] "GET /\r\n".toList
      = HandleResult.panicked Panic.sliceOutOfRange ∧
    handle plainLib [("/".toList, some 1)] "GET / HTTP/1.0\r\nHost\r\n\r\n".toList
      = HandleResult.panicked Panic.indexOutOfRange :=
  ⟨by decide, by decide⟩

theorem handleLine_headers (lib : UrlLib) (handlers : Handlers) (data : GoString)
    (endIndex : Int) (headerTo : GoMap) (body : GoString) (hr : HandlerFunc)
    (req : Request)
    (h : handleLine lib handlers data endIndex headerTo body = HandleResult.dispatched hr req) :
    req.Headers = headerTo ∧ req.Body = body := by
  unfold handleLine at h
  split at h
  · cases h
  dsimp only at h
  repeat' split at h
  all_goals cases h
  all_goals exact ⟨rfl, rfl⟩

/-- With a malformed request line no handler is called, neither a registered
one nor the fallback. -/
theorem handleLine_bad_request_line (lib : UrlLib) (handlers : Handlers) (data : GoString)
    (e : Nat) (headerTo : GoMap) (body : GoString) (he : e ≤ data.length)
    (hbad : (strSplit (data.take e) [' ']).length ≠ 3 ∨
      (strSplit (data.take e) [' '])[2]? ≠ some "HTTP/1.1".toList) :
    handleLine lib handlers data (e : Int) headerTo body = HandleResult.returned := by
  have hs : substr data 0 (e : Int) = Outcome.ok (data.take e) := by
    have c : (e : Int) ≤ (data.length : Int) := by omega
    simp [substr, c]
  unfold handleLine
  rw [hs]
  simp only []
  by_cases hlen : (strSplit (data.take e) [' ']).length ≠ 3
  · rw [if_pos hlen]
  · rw [if_neg hlen]
    have hlen3 : (strSplit (data.take e) [' ']).length = 3 := by omega
    have hv := hbad.resolve_left hlen
    have h1 : (strSplit (data.take e) [' '])[1]? = some ((strSplit (data.take e) [' '])[1]) :=
      List.getElem?_eq_getElem (by omega)
    have h2 : (strSplit (data.take e) [' '])[2]? = some ((strSplit (data.take e) [' '])[2]) :=
      List.getElem?_eq_getElem (by omega)
    rw [elemAt_some _ _ _ h1, elemAt_some _ _ _ h2]
    simp only []
    rw [if_pos (by
      intro hver
      apply hv
      rw [h2, hver])]


theorem occurrences_eq_zero (sep s : GoString) (h : occurrences sep s = 0) :
    findIndex s sep = none := by
  induction s with
  | nil =>
    by_cases hp : sep.isPrefixOf [] = true
    · simp [occurrences, hp] at h
    · simp [findIndex, hp]
  | cons c t ih =>
    by_cases hp : sep.isPrefixOf (c :: t) = true
    · simp [occurrences, hp] at h
    · simp only [occurrences, hp, if_false, Nat.zero_add, Bool.false_eq_true] at h
      simp only [findIndex, hp, if_false, ih h, Option.map_none', Bool.false_eq_true]

theorem occurrences_cons (sep : GoString) (c : Char) (t : GoString) :
    occurrences sep (c :: t)
      = (if sep.isPrefixOf (c :: t) then 1 else 0) + occurrences sep t := rfl

theorem findIndex_cons (sep : GoString) (c : Char) (t : GoString) :
    findIndex (c :: t) sep
      = if sep.isPrefixOf (c :: t) then some 0 else (findIndex t sep).map (· + 1) := rfl

theorem occurrences_append_ge (sep a b : GoString) :
    occurrences sep b ≤ occurrences sep (a ++ b) := by
  induction a with
  | nil => simp
  | cons c t ih =>
    rw [List.cons_append, occurrences_cons]
    omega

theorem findIndex_at_start (sep rest : GoString) (h : sep.isPrefixOf rest = true) :
    findIndex rest sep = some 0 := by
  cases rest with
  | nil => simp [findIndex, h]
  | cons c t => simp [findIndex, h]

/-- When no occurrence of `sep` starts inside `k`, the first one is where
`rest` begins. -/
theorem findIndex_append_of_occurrences (sep rest : GoString)
    (hp : sep.isPrefixOf rest = true) (k : GoString) :
    occurrences sep (k ++ rest) = occurrences sep rest →
      findIndex (k ++ rest) sep = some k.length := by
  induction k with
  | nil => intro _; simpa using findIndex_at_start sep rest hp
  | cons c t ih =>
    intro h
    have hge := occurrences_append_ge sep t rest
    rw [List.cons_append, occurrences_cons] at h
    rw [List.cons_append, findIndex_cons]
    by_cases hc : sep.isPrefixOf (c :: (t ++ rest)) = true
    · rw [if_pos hc] at h; omega
    · rw [if_neg hc] at h
      rw [if_neg hc, ih (by omega)]
      simp

/-- Result of `strings.Split(line, ": ")` on a line that contains `: ` exactly once. -/
theorem strSplit_header_line (k v : GoString)
    (h : occurrences [':', ' '] (k ++ [':', ' '] ++ v) = 1) :
    strSplit (k ++ [':', ' '] ++ v) [':', ' '] = [k, v] := by
  have hrest : occurrences [':', ' '] ([':', ' '] ++ v) = 1 + occurrences [':', ' '] v := by
    simp [occurrences]
  have hge := occurrences_append_ge [':', ' '] k ([':', ' '] ++ v)
  rw [List.append_assoc] at h
  have hv0 : occurrences [':', ' '] v = 0 := by omega
  have hidx := findIndex_append_of_occurrences [':', ' '] ([':', ' '] ++ v) (by simp) k
    (by omega)
  have hlen : (k ++ ([':', ' '] ++ v)).length = (k.length + v.length + 1) + 1 := by
    simp; omega
  rw [List.append_assoc, strSplit, hlen, genSplit, hidx]
  simp only [List.length_cons, List.length_nil]
  rw [List.take_left, List.drop_append,
    genSplit_of_none _ _ _ (by simpa using occurrences_eq_zero _ _ hv0)]
  simp

theorem headerLoop_pairs (kvs : List (GoString × GoString)) :
    ∀ m : GoMap,
      (∀ kv ∈ kvs, occurrences [':', ' '] (kv.1 ++ [':', ' '] ++ kv.2) = 1) →
      headerLoop (kvs.map (fun kv => kv.1 ++ [':', ' '] ++ kv.2)) m
        = Outcome.ok (kvs.foldl (fun acc kv => mapSet acc kv.1 kv.2) m) := by
  induction kvs with
  | nil => intro m _; simp [headerLoop]
  | cons kv rest ih =>
    intro m h
    have h0 := h kv (by simp)
    simp only [List.map_cons, headerLoop, strSplit_header_line kv.1 kv.2 h0, elemAt,
      List.getElem?_cons_zero, List.getElem?_cons_succ, List.foldl_cons]
    exact ih _ (fun kv1 hkv1 => h kv1 (by simp [hkv1]))

theorem mapGet_foldl (kvs : List (GoString × GoString)) :
    ∀ (m : GoMap) (k : GoString),
      mapGet (kvs.foldl (fun acc kv => mapSet acc kv.1 kv.2) m) k
        = ((kvs.reverse.find? (fun kv => decide (kv.1 = k))).map (fun kv => kv.2)).or
            (mapGet m k) := by
  induction kvs with
  | nil => intro m k; simp
  | cons kv rest ih =>
    intro m k
    rw [List.foldl_cons, ih, List.reverse_cons, List.find?_append]
    cases hf : rest.reverse.find? (fun kv => decide (kv.1 = k)) with
    | some e => simp
    | none =>
      by_cases hk : kv.1 = k
      · subst hk
        simp [mapGet_mapSet_same]
      · have hk2 : k ≠ kv.1 := fun e => hk e.symm
        simp [hk, mapGet_mapSet_other m kv.1 kv.2 k hk2]


/-- C10: when a buffer is parsed and dispatched and its header lines are
`k: v` lines each containing `: ` exactly once, the `Headers` of the request
map every key to the value of the last line with that key and have no other
key; without header lines the map is empty. -/
theorem C10_headers_last_wins (lib : UrlLib) (handlers : Handlers) (data region : GoString)
    (hr : HandlerFunc) (req : Request) (kvs : List (GoString × GoString))
    (hreg : substr data (bytesIndex data ['\r', '\n'])
      (bytesIndex data ['\r', '\n', '\r', '\n']) = Outcome.ok region)
    (hlines : (strSplit region ['\r', '\n']).drop 1
      = kvs.map (fun kv => kv.1 ++ [':', ' '] ++ kv.2))
    (honce : ∀ kv ∈ kvs, occurrences [':', ' '] (kv.1 ++ [':', ' '] ++ kv.2) = 1)
    (hd : handle lib handlers data = HandleResult.dispatched hr req) :
    (∀ k : GoString, mapGet req.Headers k
      = (kvs.reverse.find? (fun kv => decide (kv.1 = k))).map (fun kv => kv.2)) ∧
    (kvs = [] → req.Headers = []) := by
  have hcrlf : bytesIndex data ['\r', '\n'] ≠ -1 := by
    intro hneg
    simp [handle, hneg] at hd
  rw [handle_eq_of_region lib handlers data region hcrlf hreg, hlines,
    headerLoop_pairs kvs [] honce] at hd
  simp only [] at hd
  split at hd
  · cases hd
  · have hH := (handleLine_headers _ _ _ _ _ _ _ _ hd).1
    rw [hH]
    constructor
    · intro k
      rw [mapGet_foldl]
      simp [mapGet]
    · intro hnil
      rw [hnil]
      rfl

/-- C10, witness: two `Host` lines and one `A` line. -/
theorem C10_headers_last_wins_witness :
    handle plainLib [("/a/b".toList, some 1)]
        "GET /a/b HTTP/1.1\r\nHost: x\r\nHost: y\r\nA: b\r\n\r\nbody".toList
      = HandleResult.dispatched (some 1)
          ⟨[], some [], [("A".toList, "b".toList), ("Host".toList, "y".toList)], "body".toList⟩ ∧
    ((∀ k : GoString,
        mapGet [("A".toList, "b".toList), ("Host".toList, "y".toList)] k
          = ([("Host".toList, "x".toList), ("Host".toList, "y".toList),
              ("A".toList, "b".toList)].reverse.find?
                (fun kv => decide (kv.1 = k))).map (fun kv => kv.2)) ∧
      (([("Host".toList, "x".toList), ("Host".toList, "y".toList),
          ("A".toList, "b".toList)] : List (GoString × GoString)) = [] →
        ([("A".toList, "b".toList), ("Host".toList, "y".toList)] : GoMap) = [])) :=
  ⟨by decide,
   C10_headers_last_wins plainLib [("/a/b".toList, some 1)]
    "GET /a/b HTTP/1.1\r\nHost: x\r\nHost: y\r\nA: b\r\n\r\nbody".toList
    "\r\nHost: x\r\nHost: y\r\nA: b".toList (some 1)
    ⟨[], some [], [("A".toList, "b".toList), ("Host".toList, "y".toList)], "body".toList⟩
    [("Host".toList, "x".toList), ("Host".toList, "y".toList), ("A".toList, "b".toList)]
    (by decide) (by decide) (by decide) (by decide)⟩

/-! ## Body, header lines with several separators -/

theorem findIndex_some (sep : GoString) (s : GoString) :
    ∀ l : Nat, findIndex s sep = some l → l ≤ s.length ∧ sep <+: s.drop l := by
  induction s with
  | nil =>
    intro l h
    by_cases hp : sep.isPrefixOf [] = true
    · simp only [findIndex, hp, if_true, Option.some.injEq] at h
      subst h
      exact ⟨Nat.le_refl _, List.isPrefixOf_iff_prefix.mp hp⟩
    · simp [findIndex, hp] at h
  | cons c t ih =>
    intro l h
    rw [findIndex_cons] at h
    by_cases hp : sep.isPrefixOf (c :: t) = true
    · rw [if_pos hp] at h
      cases h
      exact ⟨Nat.zero_le _, List.isPrefixOf_iff_prefix.mp hp⟩
    · rw [if_neg hp] at h
      cases hf : findIndex t sep with
      | none => simp [hf] at h
      | some i =>
        simp only [hf, Option.map_some', Option.some.injEq] at h
        subst h
        have := ih i hf
        exact ⟨by simp; omega, by simpa using this.2⟩

theorem substr_to_end (s : GoString) (l : Nat) (hl : l ≤ s.length) :
    substr s (l : Int) (s.length : Int) = Outcome.ok (s.drop l) := by
  have c1 : (l : Int) ≤ (s.length : Int) := by omega
  have e1 : ((s.length : Int) - (l : Int)).toNat = s.length - l := by omega
  simp only [substr, c1, e1]
  simp

/-- What `strings.Trim` leaves: the string is the result between two runs of
cutset bytes, and the result neither starts nor ends with a cutset byte. -/
theorem strTrim_spec (s cut : GoString) :
    (∃ a b : GoString, s = a ++ strTrim s cut ++ b ∧ (∀ c ∈ a, c ∈ cut) ∧ (∀ c ∈ b, c ∈ cut)) ∧
    (∀ c, (strTrim s cut).head? = some c → c ∉ cut) ∧
    (∀ c, (strTrim s cut).getLast? = some c → c ∉ cut) := by
  have hT : strTrim s cut
      = (s.dropWhile (fun c => decide (c ∈ cut))).rdropWhile (fun c => decide (c ∈ cut)) := rfl
  refine ⟨?_, ?_, ?_⟩
  · refine ⟨s.takeWhile (fun c => decide (c ∈ cut)),
      (((s.dropWhile (fun c => decide (c ∈ cut))).reverse.takeWhile
        (fun c => decide (c ∈ cut))).reverse), ?_, ?_, ?_⟩
    · have h1 : (s.dropWhile (fun c => decide (c ∈ cut)))
          = strTrim s cut ++ (((s.dropWhile (fun c => decide (c ∈ cut))).reverse.takeWhile
              (fun c => decide (c ∈ cut))).reverse) := by
        rw [strTrim, ← List.reverse_append, List.takeWhile_append_dropWhile, List.reverse_reverse]
      rw [List.append_assoc, ← h1, List.takeWhile_append_dropWhile]
    · intro c hc
      simpa using List.mem_takeWhile_imp hc
    · intro c hc
      simpa using List.mem_takeWhile_imp (List.mem_reverse.mp hc)
  · intro c hc
    rw [hT] at hc
    obtain ⟨b, hb⟩ := List.rdropWhile_prefix (fun c => decide (c ∈ cut))
      (s.dropWhile (fun c => decide (c ∈ cut)))
    have hne : (s.dropWhile (fun c => decide (c ∈ cut))).rdropWhile
        (fun c => decide (c ∈ cut)) ≠ [] := by
      intro e; rw [e] at hc; simp at hc
    have hhead : (s.dropWhile (fun c => decide (c ∈ cut))).head? = some c := by
      rw [← hb, List.head?_append_of_ne_nil _ hne]
      exact hc
    have := List.head?_dropWhile_not (fun c => decide (c ∈ cut)) s
    rw [hhead] at this
    simpa using this
  · intro c hc
    rw [hT] at hc
    have hne : (s.dropWhile (fun c => decide (c ∈ cut))).rdropWhile
        (fun c => decide (c ∈ cut)) ≠ [] := by
      intro e; rw [e] at hc; simp at hc
    have := List.rdropWhile_last_not (fun c => decide (c ∈ cut))
      (s.dropWhile (fun c => decide (c ∈ cut))) hne
    rw [List.getLast?_eq_getLast _ hne] at hc
    cases hc
    simpa using this

theorem strTrim_separator (rest : GoString) :
    strTrim (['\r', '\n', '\r', '\n'] ++ rest) ['\r', '\n'] = strTrim rest ['\r', '\n'] := by
  simp [strTrim, List.dropWhile]

/-- C11: in a dispatched request the `Body` is what follows the first CRLFCRLF
with the leading and trailing CR and LF bytes removed: trimming the slice that
still begins with the separator gives the same as trimming the bytes behind
it, the removed parts are runs of CR and LF, and the `Body` neither starts nor
ends with CR or LF. -/
theorem C11_body_trimmed (lib : UrlLib) (handlers : Handlers) (data : GoString)
    (hr : HandlerFunc) (req : Request) (l : Nat)
    (hsep : findIndex data ['\r', '\n', '\r', '\n'] = some l)
    (hd : handle lib handlers data = HandleResult.dispatched hr req) :
    req.Body = strTrim (data.drop (l + 4)) ['\r', '\n'] ∧
    (∃ a b : GoString, data.drop (l + 4) = a ++ req.Body ++ b ∧
      (∀ c ∈ a, c = '\r' ∨ c = '\n') ∧ (∀ c ∈ b, c = '\r' ∨ c = '\n')) ∧
    (∀ c, req.Body.head? = some c → c ≠ '\r' ∧ c ≠ '\n') ∧
    (∀ c, req.Body.getLast? = some c → c ≠ '\r' ∧ c ≠ '\n') := by
  have hcrlf : bytesIndex data ['\r', '\n'] ≠ -1 := by
    intro hneg
    simp [handle, hneg] at hd
  have hl : bytesIndex data ['\r', '\n', '\r', '\n'] = (l : Int) := by
    simp [bytesIndex, hsep]
  obtain ⟨hle, hpre⟩ := findIndex_some _ _ l hsep
  have hbody : req.Body = strTrim (data.drop (l + 4)) ['\r', '\n'] := by
    cases hreg : substr data (bytesIndex data ['\r', '\n'])
        (bytesIndex data ['\r', '\n', '\r', '\n']) with
    | panic e => simp [handle, hcrlf, hreg] at hd
    | ok region =>
      rw [handle_eq_of_region lib handlers data region hcrlf hreg, hl,
        substr_to_end data l hle] at hd
      split at hd
      · cases hd
      · simp only [] at hd
        rw [(handleLine_headers _ _ _ _ _ _ _ _ hd).2]
        obtain ⟨t, ht⟩ := hpre
        have hdrop : data.drop (l + 4) = t := by
          have h4 : data.drop (l + 4) = (data.drop l).drop 4 := by
            simp [List.drop_drop, Nat.add_comm]
          rw [h4, ← ht]
          rfl
        rw [hdrop, ← ht, strTrim_separator]
  obtain ⟨⟨a, b, hab, ha, hb⟩, hhead, hlast⟩ := strTrim_spec (data.drop (l + 4)) ['\r', '\n']
  rw [← hbody] at hab hhead hlast
  refine ⟨hbody, ⟨a, b, hab, ?_, ?_⟩, ?_, ?_⟩
  · intro c hc; simpa using ha c hc
  · intro c hc; simpa using hb c hc
  · intro c hc; simpa using hhead c hc
  · intro c hc; simpa using hlast c hc

/-- C11, witness: a body surrounded by CR and LF bytes. -/
theorem C11_body_trimmed_witness :
    handle plainLib [("/a".toList, some 1)] "GET /a HTTP/1.1\r\n\r\n\r\n\nbody\r\n".toList
      = HandleResult.dispatched (some 1) ⟨[], some [], [], "body".toList⟩ ∧
    "body".toList
      = strTrim ("GET /a HTTP/1.1\r\n\r\n\r\n\nbody\r\n".toList.drop (15 + 4)) ['\r', '\n'] :=
  ⟨by decide,
   (C11_body_trimmed plainLib [("/a".toList, some 1)]
    "GET /a HTTP/1.1\r\n\r\n\r\n\nbody\r\n".toList (some 1)
    ⟨[], some [], [], "body".toList⟩ 15 (by decide) (by decide)).1⟩

theorem findIndex_colon_append (r : GoString) (k : GoString) :
    ¬ [':', ' '] <:+: k → findIndex (k ++ ':' :: ' ' :: r) [':', ' '] = some k.length := by
  induction k with
  | nil => intro _; simp [findIndex]
  | cons c t ih =>
    intro hk
    have ht : ¬ [':', ' '] <:+: t := fun e => hk (List.infix_cons e)
    have hp : List.isPrefixOf [':', ' '] (c :: t ++ ':' :: ' ' :: r) = false := by
      cases t with
      | nil => simp [List.isPrefixOf]
      | cons c2 t2 =>
        cases hb : List.isPrefixOf [':', ' '] (c :: c2 :: t2 ++ ':' :: ' ' :: r) with
        | false => rfl
        | true =>
          exfalso
          apply hk
          simp [List.isPrefixOf] at hb
          rw [hb.1, hb.2]
          exact ⟨[], t2, rfl⟩
    rw [List.cons_append, findIndex_cons]
    rw [List.cons_append] at hp
    rw [hp, ih ht]
    simp

theorem genSplit_colon_cut (n : Nat) (k r : GoString) (hk : ¬ [':', ' '] <:+: k) :
    genSplit [':', ' '] (n + 1) (k ++ ':' :: ' ' :: r) = k :: genSplit [':', ' '] n r := by
  rw [genSplit, findIndex_colon_append _ k hk]
  simp

/-- Result of `strings.Split(line, ": ")` on a line with a second `: `. -/
theorem strSplit_header_line_extra (k v w : GoString)
    (hk : ¬ [':', ' '] <:+: k) (hv : ¬ [':', ' '] <:+: v) :
    ∃ more : List GoString,
      strSplit (k ++ [':', ' '] ++ v ++ [':', ' '] ++ w) [':', ' '] = k :: v :: more := by
  have hline : k ++ [':', ' '] ++ v ++ [':', ' '] ++ w
      = k ++ ':' :: ' ' :: (v ++ ':' :: ' ' :: w) := by simp
  have hlen : (k ++ ':' :: ' ' :: (v ++ ':' :: ' ' :: w)).length
      = (k.length + v.length + w.length + 2) + 1 + 1 := by
    simp; omega
  rw [hline, strSplit, hlen, genSplit_colon_cut _ k _ hk, genSplit_colon_cut _ v _ hv]
  exact ⟨_, rfl⟩

theorem headerLoop_extra_step (k v w : GoString) (rest : List GoString) (m : GoMap)
    (hk : ¬ [':', ' '] <:+: k) (hv : ¬ [':', ' '] <:+: v) :
    headerLoop ((k ++ [':', ' '] ++ v ++ [':', ' '] ++ w) :: rest) m
      = headerLoop rest (mapSet m k v) := by
  obtain ⟨more, hs⟩ := strSplit_header_line_extra k v w hk hv
  rw [headerLoop]
  simp only [hs, elemAt, List.getElem?_cons_zero, List.getElem?_cons_succ]

theorem headerLoop_append (a b : List GoString) :
    ∀ m : GoMap, headerLoop (a ++ b) m =
      match headerLoop a m with
      | Outcome.panic e => Outcome.panic e
      | Outcome.ok m1 => headerLoop b m1 := by
  induction a with
  | nil => intro m; simp [headerLoop]
  | cons x t ih =>
    intro m
    rw [List.cons_append, headerLoop, headerLoop]
    cases elemAt (strSplit x [':', ' ']) 0 with
    | panic e => rfl
    | ok k =>
      dsimp only
      cases elemAt (strSplit x [':', ' ']) 1 with
      | panic e => rfl
      | ok val => exact ih _

theorem mapGet_mapSet (m : GoMap) (k v k1 : GoString) :
    mapGet (mapSet m k v) k1 = if k1 = k then some v else mapGet m k1 := by
  by_cases h : k1 = k
  · subst h; simp [mapGet_mapSet_same]
  · simp [h, mapGet_mapSet_other m k v k1 h]

theorem elemAt_ok {α : Type} (xs : List α) (i : Nat) (x : α)
    (h : elemAt xs i = Outcome.ok x) : xs[i]? = some x := by
  simp only [elemAt] at h
  split at h
  · rename_i y hy
    cases h
    exact hy
  · cases h

theorem headerLoop_keeps_key (k : GoString) (ls : List GoString) :
    ∀ m m1 : GoMap, headerLoop ls m = Outcome.ok m1 →
      (mapGet m k ≠ none → mapGet m1 k ≠ none) ∧
      ((∀ line ∈ ls, (strSplit line [':', ' '])[0]? ≠ some k) → mapGet m1 k = mapGet m k) := by
  induction ls with
  | nil =>
    intro m m1 h
    simp only [headerLoop, Outcome.ok.injEq] at h
    subst h
    exact ⟨id, fun _ => rfl⟩
  | cons x t ih =>
    intro m m1 h
    rw [headerLoop] at h
    cases h0 : elemAt (strSplit x [':', ' ']) 0 with
    | panic e => rw [h0] at h; cases h
    | ok k0 =>
      rw [h0] at h
      dsimp only at h
      cases h1 : elemAt (strSplit x [':', ' ']) 1 with
      | panic e => rw [h1] at h; cases h
      | ok v0 =>
        rw [h1] at h
        dsimp only at h
        obtain ⟨p1, p2⟩ := ih _ _ h
        constructor
        · intro hm
          apply p1
          rw [mapGet_mapSet]
          split
          · simp
          · exact hm
        · intro hall
          rw [p2 (fun line hl => hall line (by simp [hl]))]
          rw [mapGet_mapSet]
          have hx := hall x (by simp)
          rw [elemAt_ok _ _ _ h0] at hx
          rw [if_neg (fun e => hx (by rw [e]))]

/-- C12, counterexample: the header line `Referer: a: b` contains `: ` twice,
yet parsing does not fail: the request is dispatched with the entry
`Referer: a` in its `Headers`. -/
theorem C12_counterexample :
    occurrences [':', ' '] "Referer: a: b".toList = 2 ∧
    handle plainLib [("/a/b".toList, some 1)]
        "GET /a/b HTTP/1.1\r\nReferer: a: b\r\n\r\n".toList
      = HandleResult.dispatched (some 1)
          ⟨[], some [], [("Referer".toList, "a".toList)], []⟩ :=
  ⟨by decide, by decide⟩

/-- C12, amended: a header line `k: v: w` with a second `: ` is accepted.  The
loop stores the text between the first and the second `: ` under the key and
drops the rest; a request that is dispatched has an entry for the key, with
that value when no later line has the same key. -/
theorem C12_header_extra_separator_accepted (k v w : GoString)
    (hk : ¬ [':', ' '] <:+: k) (hv : ¬ [':', ' '] <:+: v) :
    (∀ (rest : List GoString) (m : GoMap),
      headerLoop ((k ++ [':', ' '] ++ v ++ [':', ' '] ++ w) :: rest) m
        = headerLoop rest (mapSet m k v)) ∧
    (∀ (lib : UrlLib) (handlers : Handlers) (data region : GoString) (hr : HandlerFunc)
      (req : Request) (pre post : List GoString),
      substr data (bytesIndex data ['\r', '\n'])
        (bytesIndex data ['\r', '\n', '\r', '\n']) = Outcome.ok region →
      (strSplit region ['\r', '\n']).drop 1
        = pre ++ (k ++ [':', ' '] ++ v ++ [':', ' '] ++ w) :: post →
      handle lib handlers data = HandleResult.dispatched hr req →
      mapGet req.Headers k ≠ none ∧
      ((∀ line ∈ post, (strSplit line [':', ' '])[0]? ≠ some k) →
        mapGet req.Headers k = some v)) := by
  refine ⟨fun rest m => headerLoop_extra_step k v w rest m hk hv, ?_⟩
  intro lib handlers data region hr req pre post hreg hlines hd
  have hcrlf : bytesIndex data ['\r', '\n'] ≠ -1 := by
    intro hneg
    simp [handle, hneg] at hd
  rw [handle_eq_of_region lib handlers data region hcrlf hreg, hlines] at hd
  cases hrun : headerLoop (pre ++ (k ++ [':', ' '] ++ v ++ [':', ' '] ++ w) :: post) [] with
  | panic e => rw [hrun] at hd; cases hd
  | ok m1 =>
    rw [hrun] at hd
    dsimp only at hd
    split at hd
    · cases hd
    · rw [(handleLine_headers _ _ _ _ _ _ _ _ hd).1]
      rw [headerLoop_append] at hrun
      cases hpre : headerLoop pre [] with
      | panic e => rw [hpre] at hrun; cases hrun
      | ok m0 =>
        rw [hpre] at hrun
        dsimp only at hrun
        rw [headerLoop_extra_step k v w post m0 hk hv] at hrun
        obtain ⟨p1, p2⟩ := headerLoop_keeps_key k post _ _ hrun
        constructor
        · apply p1
          rw [mapGet_mapSet_same]
          simp
        · intro hall
          rw [p2 hall, mapGet_mapSet_same]

/-- C12, witness: the line `Referer: a: b`. -/
theorem C12_header_extra_separator_accepted_witness :
    headerLoop ["Referer: a: b".toList] [] = Outcome.ok [("Referer".toList, "a".toList)] :=
  (C12_header_extra_separator_accepted "Referer".toList "a".toList "b".toList
    (by decide) (by decide)).1 [] []

/-! ## The route table -/

theorem lookupHandler_mem (T : Handlers) (k : GoString) (h : HandlerFunc)
    (hl : lookupHandler T k = some h) : (k, h) ∈ T := by
  simp only [lookupHandler, Option.map_eq_some'] at hl
  obtain ⟨e, he, h2⟩ := hl
  have hk := List.find?_some he
  have hm := List.mem_of_find?_eq_some he
  simp only [decide_eq_true_eq] at hk
  rw [← hk, ← h2]
  exact hm

theorem lookupHandler_of_mem (T : Handlers) (k : GoString) (h : HandlerFunc)
    (hnd : (T.map (fun e => e.1)).Nodup) (hm : (k, h) ∈ T) :
    lookupHandler T k = some h := by
  induction T with
  | nil => simp at hm
  | cons e t ih =>
    simp only [List.map_cons, List.nodup_cons] at hnd
    rcases List.mem_cons.mp hm with he | ht
    · subst he
      simp [lookupHandler]
    · have hne : e.1 ≠ k := by
        intro hek
        apply hnd.1
        rw [hek]
        exact List.mem_map.mpr ⟨(k, h), ht, rfl⟩
      have := ih hnd.2 ht
      simp only [lookupHandler, List.find?_cons, hne, decide_False] at this ⊢
      exact this

theorem lookupHandler_isSome (T : Handlers) (k : GoString)
    (hk : k ∈ T.map (fun e => e.1)) : ∃ hr, lookupHandler T k = some hr := by
  induction T with
  | nil => simp at hk
  | cons e t ih =>
    by_cases he : e.1 = k
    · exact ⟨e.2, by simp [lookupHandler, he]⟩
    · have hk2 : k ∈ t.map (fun e => e.1) := by
        simp only [List.map_cons, List.mem_cons] at hk
        rcases hk with hk | hk
        · exact absurd hk.symm he
        · exact hk
      obtain ⟨hr, hhr⟩ := ih hk2
      refine ⟨hr, ?_⟩
      simp only [lookupHandler, List.find?_cons, he, decide_False] at hhr ⊢
      exact hhr

theorem mem_Register (hs : Handlers) (p : GoString) (h : HandlerFunc)
    (e : GoString × HandlerFunc) :
    e ∈ Register hs p h ↔ e = (p, h) ∨ (e ∈ hs ∧ e.1 ≠ p) := by
  unfold Register
  by_cases hany : hs.any (fun e => decide (e.1 = p)) = true
  · rw [if_pos hany]
    simp only [List.any_eq_true, decide_eq_true_eq] at hany
    obtain ⟨x, hx, hxp⟩ := hany
    simp only [List.mem_map]
    constructor
    · rintro ⟨y, hy, rfl⟩
      by_cases hyp : y.1 = p
      · simp [hyp]
      · simp [hyp, hy]
    · rintro (rfl | ⟨he, hep⟩)
      · exact ⟨x, hx, by simp [hxp]⟩
      · exact ⟨e, he, by simp [hep]⟩
  · rw [if_neg hany]
    have hnone : ∀ x ∈ hs, x.1 ≠ p := by
      intro x hx hxp
      apply hany
      exact List.any_eq_true.mpr ⟨x, hx, by simpa using hxp⟩
    simp only [List.mem_append, List.mem_singleton]
    constructor
    · rintro (he | he)
      · exact Or.inr ⟨he, hnone e he⟩
      · exact Or.inl he
    · rintro (he | ⟨he, _⟩)
      · exact Or.inr he
      · exact Or.inl he

theorem Register_keys_nodup (hs : Handlers) (p : GoString) (h : HandlerFunc)
    (hnd : (hs.map (fun e => e.1)).Nodup) :
    ((Register hs p h).map (fun e => e.1)).Nodup := by
  unfold Register
  by_cases hany : hs.any (fun e => decide (e.1 = p)) = true
  · rw [if_pos hany]
    have hkeys : (hs.map (fun e => if e.1 = p then (p, h) else e)).map (fun e => e.1)
        = hs.map (fun e => e.1) := by
      rw [List.map_map]
      apply List.map_congr_left
      intro e _
      by_cases hep : e.1 = p
      · simp [hep]
      · simp [hep]
    rw [hkeys]
    exact hnd
  · rw [if_neg hany]
    rw [List.map_append, List.nodup_append]
    refine ⟨hnd, by simp, ?_⟩
    intro k hk hk2
    simp only [List.map_cons, List.map_nil, List.mem_singleton] at hk2
    subst hk2
    apply hany
    obtain ⟨x, hx, hxk⟩ := List.mem_map.mp hk
    exact List.any_eq_true.mpr ⟨x, hx, by simpa using hxk⟩

theorem lookupHandler_Register_same (hs : Handlers) (p : GoString) (h : HandlerFunc) :
    lookupHandler (Register hs p h) p = some h := by
  obtain ⟨hr, hhr⟩ := lookupHandler_isSome (Register hs p h) p (by
    apply List.mem_map.mpr
    exact ⟨(p, h), (mem_Register hs p h (p, h)).mpr (Or.inl rfl), rfl⟩)
  have hm := lookupHandler_mem _ _ _ hhr
  rcases (mem_Register hs p h (p, hr)).mp hm with he | ⟨_, hne⟩
  · rw [hhr]
    simp only [Prod.mk.injEq, true_and] at he
    rw [he]
  · exact absurd rfl hne

theorem lookupHandler_Register_other (hs : Handlers) (p q : GoString) (h : HandlerFunc)
    (hq : q ≠ p) : lookupHandler (Register hs p h) q = lookupHandler hs q := by
  unfold Register
  by_cases hany : hs.any (fun e => decide (e.1 = p)) = true
  · rw [if_pos hany]
    clear hany
    induction hs with
    | nil => rfl
    | cons e t ih =>
      by_cases hep : e.1 = p
      · have heq : ¬ e.1 = q := fun x => hq (by rw [← x, hep])
        have hpq : ¬ p = q := fun x => hq x.symm
        simp only [lookupHandler, List.map_cons, hep, if_true, List.find?_cons, hpq, heq,
          decide_False] at ih ⊢
        exact ih
      · by_cases heq : e.1 = q
        · simp [lookupHandler, heq, hq]
        · simp only [lookupHandler, List.map_cons, hep, if_false, List.find?_cons, heq,
            decide_False] at ih ⊢
          exact ih
  · rw [if_neg hany]
    have hpq : ¬ p = q := fun x => hq x.symm
    simp [lookupHandler, List.find?_append, hpq]

/-- A non-empty pattern segment that does not panic sets `flag`. -/
theorem segBody_flag (qs : List GoString) (j : Nat) (v : GoString) (m : GoMap)
    (f : Bool) (st : SegState) (hv : v ≠ []) (h : segBody qs j v m f = Outcome.ok st) :
    st.flag = true := by
  unfold segBody at h
  have hpos := strSplit_length_pos v ['{']
  simp only [gt_iff_lt, hpos, if_true] at h
  rw [if_pos hv] at h
  repeat' split at h
  all_goals cases h
  all_goals rfl

theorem segLoop_flag (qs : List GoString) (rest : List GoString) :
    ∀ (j : Nat) (m : GoMap) (f : Bool) (m1 : GoMap) (f1 : Bool),
      segLoop qs j rest m f = Outcome.ok (m1, f1) →
      f1 = (f || rest.any (fun v => decide (v ≠ []))) := by
  induction rest with
  | nil =>
    intro j m f m1 f1 h
    simp only [segLoop, Outcome.ok.injEq, Prod.mk.injEq] at h
    simp [h.2]
  | cons v rest ih =>
    intro j m f m1 f1 h
    rw [segLoop_cons] at h
    cases hb : segBody qs j v m f with
    | panic e => rw [hb] at h; cases h
    | ok st =>
      rw [hb] at h
      dsimp only at h
      have := ih _ _ _ _ _ h
      by_cases hv : v = []
      · subst hv
        rw [segBody_nil] at hb
        cases hb
        simpa using this
      · rw [segBody_flag qs j v m f st hv hb] at this
        simp [this, hv]

theorem segLoop_all_empty (qs : List GoString) (rest : List GoString) (j : Nat) (m : GoMap)
    (f : Bool) (h : ∀ v ∈ rest, v = []) :
    segLoop qs j rest m f = Outcome.ok (m, f) := by
  rw [segLoop_literal qs rest j m f (fun i v hi hv => absurd (h v (List.getElem?_mem hi)) hv)]
  have : rest.any (fun v => decide (v ≠ [])) = false := by
    rw [List.any_eq_false]
    intro v hv
    simp [h v hv]
  rw [this]
  simp

/-- A handler returned by the loop over the candidates is the table's entry
for a candidate that has a non-empty segment. -/
theorem routeLoop_resolved (hs : Handlers) (path : GoString) (routes : List GoString) :
    ∀ (m0 m : GoMap) (hr : HandlerFunc),
      routeLoop hs path routes m0 = Outcome.ok (some m, hr) →
      ∃ route ∈ routes, (∃ v ∈ strSplit route ['/'], v ≠ []) ∧
        lookupHandler hs route = some hr := by
  induction routes with
  | nil => intro m0 m hr h; simp [routeLoop] at h
  | cons route rest ih =>
    intro m0 m hr h
    rw [routeLoop] at h
    cases hseg : segLoop (strSplit path ['/']) 0 (strSplit route ['/']) m0 false with
    | panic e => rw [hseg] at h; cases h
    | ok r =>
      obtain ⟨m1, flag⟩ := r
      rw [hseg] at h
      dsimp only at h
      cases flag with
      | false =>
        simp only [Bool.false_eq_true, if_false] at h
        obtain ⟨r2, hr2, hp⟩ := ih _ _ _ h
        exact ⟨r2, List.mem_cons_of_mem _ hr2, hp⟩
      | true =>
        simp only [if_true] at h
        have hfl := segLoop_flag _ _ _ _ _ _ _ hseg
        simp only [Bool.false_or] at hfl
        obtain ⟨v, hv, hvne⟩ := List.any_eq_true.mp hfl.symm
        cases hl : lookupHandler hs route with
        | none => rw [hl] at h; cases h
        | some hr1 =>
          rw [hl] at h
          cases h
          exact ⟨route, List.mem_cons_self _ _, ⟨v, hv, by simpa using hvne⟩, hl⟩

theorem validate_resolved (hs : Handlers) (path : GoString) (m : GoMap) (hr : HandlerFunc)
    (h : validate hs path = Outcome.ok (some m, hr)) :
    ∃ route ∈ hs.map (fun e => e.1), (∃ v ∈ strSplit route ['/'], v ≠ []) ∧
      lookupHandler hs route = some hr :=
  routeLoop_resolved hs path _ _ _ _ h

theorem validate_literal_self (P : GoString) (h : HandlerFunc)
    (hne : ∃ v ∈ strSplit P ['/'], v ≠ [])
    (hlit : ∀ v ∈ strSplit P ['/'], ¬ (['{'] <+: v ∧ ['}'] <:+ v)) :
    validate [(P, h)] P = Outcome.ok (some [], h) := by
  rw [validate_single]
  rw [segLoop_literal (strSplit P ['/']) (strSplit P ['/']) 0 [] false
    (fun i v hi _ => ⟨hlit v (List.getElem?_mem hi), by simpa using hi⟩)]
  have hany : (strSplit P ['/']).any (fun v => decide (v ≠ [])) = true := by
    obtain ⟨v, hv, hvne⟩ := hne
    exact List.any_eq_true.mpr ⟨v, hv, by simpa using hvne⟩
  rw [hany]
  simp

/-- C13: `Register(p, h)` makes the table map `p` to `h` and leaves every other
pattern alone.  After `Register(p, h1)` and `Register(p, h2)` the table has one
entry for `p`, bound to `h2`; whatever the iteration order, a handler returned
by `validate` is `h2` or the handler of another pattern of the old table, and
with no other pattern registered the path `p` resolves to `h2`. -/
theorem C13_register_overwrites (hs : Handlers) (p : GoString) (h h1 h2 : HandlerFunc)
    (hnd : (hs.map (fun e => e.1)).Nodup) :
    lookupHandler (Register hs p h) p = some h ∧
    (∀ q : GoString, q ≠ p → lookupHandler (Register hs p h) q = lookupHandler hs q) ∧
    (((Register (Register hs p h1) p h2).map (fun e => e.1)).Nodup ∧
      (∀ e ∈ Register (Register hs p h1) p h2, e.1 = p → e = (p, h2)) ∧
      lookupHandler (Register (Register hs p h1) p h2) p = some h2) ∧
    (∀ (T : Handlers) (path : GoString) (m : GoMap) (hr : HandlerFunc),
      T.Perm (Register (Register hs p h1) p h2) →
      validate T path = Outcome.ok (some m, hr) →
      hr = h2 ∨ ∃ q : GoString, q ≠ p ∧ lookupHandler hs q = some hr) ∧
    (hs = [] → (∃ v ∈ strSplit p ['/'], v ≠ []) →
      (∀ v ∈ strSplit p ['/'], ¬ (['{'] <+: v ∧ ['}'] <:+ v)) →
      validate (Register (Register hs p h1) p h2) p = Outcome.ok (some [], h2)) := by
  refine ⟨lookupHandler_Register_same hs p h,
    fun q hq => lookupHandler_Register_other hs p q h hq, ⟨?_, ?_, ?_⟩, ?_, ?_⟩
  · exact Register_keys_nodup _ p h2 (Register_keys_nodup hs p h1 hnd)
  · intro e he hep
    rcases (mem_Register _ p h2 e).mp he with h3 | ⟨_, h4⟩
    · exact h3
    · exact absurd hep h4
  · exact lookupHandler_Register_same _ p h2
  · intro T path m hr hperm hval
    obtain ⟨route, _, _, hl⟩ := validate_resolved T path m hr hval
    have hm := hperm.mem_iff.mp (lookupHandler_mem T route hr hl)
    rcases (mem_Register _ p h2 (route, hr)).mp hm with he | ⟨he, hne⟩
    · left
      simp only [Prod.mk.injEq] at he
      exact he.2
    · right
      rcases (mem_Register hs p h1 (route, hr)).mp he with he1 | ⟨he1, _⟩
      · simp only [Prod.mk.injEq] at he1
        exact absurd he1.1 hne
      · exact ⟨route, hne, lookupHandler_of_mem hs route hr hnd he1⟩
  · intro hnil hne hlit
    subst hnil
    have : Register (Register [] p h1) p h2 = [(p, h2)] := by
      simp [Register]
    rw [this]
    exact validate_literal_self p h2 hne hlit

/-- C13, witness: `/a/b` registered twice next to `/x`. -/
theorem C13_register_overwrites_witness :
    lookupHandler (Register (Register [("/x".toList, some 7)] "/a/b".toList (some 1))
      "/a/b".toList (some 2)) "/a/b".toList = some (some 2) ∧
    validate (Register (Register [] "/a/b".toList (some 1)) "/a/b".toList (some 2))
      "/a/b".toList = Outcome.ok (some [], some 2) :=
  ⟨(C13_register_overwrites [("/x".toList, some 7)] "/a/b".toList (some 1) (some 1) (some 2)
      (by decide)).2.2.1.2.2,
   by decide⟩

/-! ## `Server.Response` -/

theorem digitChar_spec : ∀ d : Nat, d < 10 →
    (Nat.digitChar d).toNat - 48 = d ∧ Nat.digitChar d ≠ '\r' ∧ Nat.digitChar d ≠ '\n' ∧
      (Nat.digitChar d).isDigit = true := by
  decide

theorem decimalValue_foldl (ds : GoString) :
    ∀ init : Nat, ds.foldl (fun acc c => 10 * acc + (c.toNat - 48)) init
      = init * 10 ^ ds.length + decimalValue ds := by
  induction ds with
  | nil => intro init; simp [decimalValue]
  | cons c t ih =>
    intro init
    rw [decimalValue, List.foldl_cons, List.foldl_cons, ih, ih (10 * 0 + (c.toNat - 48))]
    simp only [List.length_cons]
    ring

theorem toDigitsCore_spec (fuel : Nat) :
    ∀ (n : Nat) (acc : GoString), n < fuel →
      decimalValue (Nat.toDigitsCore 10 fuel n acc) = n * 10 ^ acc.length + decimalValue acc ∧
      ((∀ c ∈ acc, c ≠ '\r' ∧ c ≠ '\n' ∧ c.isDigit = true) →
        ∀ c ∈ Nat.toDigitsCore 10 fuel n acc, c ≠ '\r' ∧ c ≠ '\n' ∧ c.isDigit = true) := by
  induction fuel with
  | zero => intro n acc h; omega
  | succ fuel ih =>
    intro n acc hn
    have hd := digitChar_spec (n % 10) (Nat.mod_lt _ (by omega))
    have hval : decimalValue (Nat.digitChar (n % 10) :: acc)
        = (n % 10) * 10 ^ acc.length + decimalValue acc := by
      rw [decimalValue, List.foldl_cons, decimalValue_foldl, hd.1]
      simp
    rw [Nat.toDigitsCore]
    by_cases h0 : n / 10 = 0
    · simp only [h0, if_true]
      have hn10 : n % 10 = n := Nat.mod_eq_of_lt (by omega)
      constructor
      · rw [hval, hn10]
      · intro hacc c hc
        rcases List.mem_cons.mp hc with rfl | hc
        · exact hd.2
        · exact hacc c hc
    · simp only [h0, if_false]
      obtain ⟨p1, p2⟩ := ih (n / 10) (Nat.digitChar (n % 10) :: acc) (by omega)
      constructor
      · rw [p1, hval]
        simp only [List.length_cons, pow_succ]
        have hq : n = 10 * (n / 10) + n % 10 := (Nat.div_add_mod n 10).symm
        generalize n / 10 = q at hq ⊢
        generalize n % 10 = r at hq ⊢
        rw [hq]
        ring
      · intro hacc
        apply p2
        intro c hc
        rcases List.mem_cons.mp hc with rfl | hc
        · exact hd.2
        · exact hacc c hc

/-- The decimal string written by `strconv.Itoa` for a length: digits only,
and they denote the number. -/
theorem repr_spec (n : Nat) :
    decimalValue (Nat.repr n).toList = n ∧
    (∀ c ∈ (Nat.repr n).toList, c ≠ '\r' ∧ c ≠ '\n' ∧ c.isDigit = true) := by
  have h := toDigitsCore_spec (n + 1) n [] (by omega)
  have e : (Nat.repr n).toList = Nat.toDigitsCore 10 (n + 1) n [] := rfl
  rw [e]
  exact ⟨by simpa [decimalValue] using h.1, h.2 (by simp)⟩

theorem findIndex_skip (sep pre rest : GoString) (i : Nat)
    (hpre : ∀ c ∈ pre, c ≠ '\r') (hsep : sep.head? = some '\r')
    (h : findIndex rest sep = some i) :
    findIndex (pre ++ rest) sep = some (pre.length + i) := by
  induction pre with
  | nil => simpa using h
  | cons c t ih =>
    have hc : c ≠ '\r' := hpre c (by simp)
    have hp : sep.isPrefixOf (c :: (t ++ rest)) = false := by
      cases sep with
      | nil => simp at hsep
      | cons s0 st =>
        simp only [List.head?_cons, Option.some.injEq] at hsep
        subst hsep
        have : ('\r' == c) = false := by
          simp only [beq_eq_false_iff_ne, ne_eq]
          exact fun e => hc e.symm
        simp [List.isPrefixOf, this]
    rw [List.cons_append, findIndex_cons, hp, ih (fun c hc => hpre c (by simp [hc]))]
    simp
    omega

theorem not_isPrefixOf_append (sep a X : GoString)
    (h : ¬ sep <+: a ∧ ¬ a <+: sep) : sep.isPrefixOf (a ++ X) = false := by
  cases hb : sep.isPrefixOf (a ++ X) with
  | false => rfl
  | true =>
    exfalso
    have h1 : sep <+: a ++ X := List.isPrefixOf_iff_prefix.mp hb
    have h2 : a <+: a ++ X := List.prefix_append a X
    rcases List.prefix_or_prefix_of_prefix h1 h2 with h3 | h3
    · exact h.1 h3
    · exact h.2 h3

/-- Skipping a part of the string in which no occurrence of `sep` can begin. -/
theorem findIndex_skip_part (sep X : GoString) (i : Nat) (hX : findIndex X sep = some i)
    (pre : GoString) :
    (∀ j : Nat, j < pre.length → ¬ sep <+: pre.drop j ∧ ¬ pre.drop j <+: sep) →
    findIndex (pre ++ X) sep = some (pre.length + i) := by
  induction pre with
  | nil => intro _; simpa using hX
  | cons c t ih =>
    intro h
    have h0 := h 0 (by simp)
    rw [List.drop_zero] at h0
    have hp := not_isPrefixOf_append sep (c :: t) X h0
    rw [List.cons_append] at hp ⊢
    rw [findIndex_cons, hp, ih (fun j hj => by
      have := h (j + 1) (by simp; omega)
      simpa using this)]
    simp
    omega

/-- C15: `Response(body)` is the fixed header block with the decimal length of
`body` in `Content-Length`, followed by `body` unchanged; the first CRLFCRLF of
the result is the one that ends the header block, and what follows it is
`body`. -/
theorem C15_response (body : GoString) :
    Response body
      = "HTTP/1.1 200 OK\r\nContent-Length: ".toList ++ (Nat.repr body.length).toList ++
          "\r\nContent-Type: text/html\r\nConnection: close\r\n\r\n".toList ++ body ∧
    decimalValue (Nat.repr body.length).toList = body.length ∧
    (∀ c ∈ (Nat.repr body.length).toList, c.isDigit = true) ∧
    findIndex (Response body) ['\r', '\n', '\r', '\n']
      = some (33 + (Nat.repr body.length).toList.length + 44) ∧
    (Response body).drop (33 + (Nat.repr body.length).toList.length + 44 + 4) = body := by
  have e1 : "HTTP/1.1 200 OK\r\n".toList ++ "Content-Length: ".toList
      = "HTTP/1.1 200 OK\r\nContent-Length: ".toList := by decide
  have e3 : "\r\nContent-Type: text/html\r\nConnection: close\r\n\r\n".toList
      = "\r\nContent-Type: text/html\r\nConnection: close".toList ++ ['\r', '\n', '\r', '\n'] := by
    decide
  have hshape : Response body
      = "HTTP/1.1 200 OK\r\nContent-Length: ".toList ++ ((Nat.repr body.length).toList ++
          ("\r\nContent-Type: text/html\r\nConnection: close".toList ++
            (['\r', '\n', '\r', '\n'] ++ body))) := by
    rw [Response]
    simp only [List.append_assoc]
    rw [← List.append_assoc "HTTP/1.1 200 OK\r\n".toList, e1]
    congr 2
  have hdig := repr_spec body.length
  have hA : ("HTTP/1.1 200 OK\r\nContent-Length: ".toList).length = 33 := by decide
  have hT : ("\r\nContent-Type: text/html\r\nConnection: close".toList).length = 44 := by decide
  refine ⟨?_, hdig.1, fun c hc => (hdig.2 c hc).2.2, ?_, ?_⟩
  · rw [hshape, e3]
    simp only [List.append_assoc]
  · rw [hshape]
    have h0 : findIndex (['\r', '\n', '\r', '\n'] ++ body) ['\r', '\n', '\r', '\n'] = some 0 :=
      findIndex_at_start _ _ (by simp [List.isPrefixOf])
    have h1 := findIndex_skip_part ['\r', '\n', '\r', '\n'] _ 0 h0
      "\r\nContent-Type: text/html\r\nConnection: close".toList (by decide)
    have h2 := findIndex_skip ['\r', '\n', '\r', '\n'] (Nat.repr body.length).toList _ _
      (fun c hc => (hdig.2 c hc).1) rfl h1
    have h3 := findIndex_skip_part ['\r', '\n', '\r', '\n'] _ _ h2
      "HTTP/1.1 200 OK\r\nContent-Length: ".toList (by decide)
    rw [h3, hA, hT]
    simp
    omega
  · rw [hshape]
    rw [show 33 + (Nat.repr body.length).toList.length + 44 + 4
        = 33 + ((Nat.repr body.length).toList.length + (44 + 4)) by omega]
    rw [← List.drop_drop, ← hA, List.drop_left, ← List.drop_drop, List.drop_left,
      ← List.drop_drop, ← hT, List.drop_left]
    rfl

/-! ## Iteration order and the candidates of `validate` -/

/-- C17: the result of `validate` depends on the iteration order of the table.
With `/users/{id}` and `/users/me` registered and the path `/users/me`, one
order returns the first handler with `{id: "me"}`, the other order the second
handler with an empty map. -/
theorem C17_validate_depends_on_order :
    List.Perm [("/users/\x7bid\x7d".toList, some 1), ("/users/me".toList, some 2)]
      [("/users/me".toList, some 2), ("/users/\x7bid\x7d".toList, some 1)] ∧
    validate [("/users/\x7bid\x7d".toList, some 1), ("/users/me".toList, some 2)]
        "/users/me".toList
      = Outcome.ok (some [("id".toList, "me".toList)], some 1) ∧
    validate [("/users/me".toList, some 2), ("/users/\x7bid\x7d".toList, some 1)]
        "/users/me".toList
      = Outcome.ok (some [], some 2) :=
  ⟨List.Perm.swap _ _ _, by decide, by decide⟩

theorem routeLoop_skip_empty (hs : Handlers) (path : GoString) (pre rest : List GoString)
    (m0 : GoMap) (hpre : ∀ r ∈ pre, ∀ v ∈ strSplit r ['/'], v = []) :
    routeLoop hs path (pre ++ rest) m0 = routeLoop hs path rest m0 := by
  induction pre with
  | nil => rfl
  | cons r t ih =>
    rw [List.cons_append, routeLoop,
      segLoop_all_empty _ _ 0 m0 false (hpre r (by simp))]
    simp only [Bool.false_eq_true, if_false]
    exact ih (fun r2 hr2 => hpre r2 (by simp [hr2]))

theorem routeLoop_no_handler (hs : Handlers) (path : GoString) (routes : List GoString) :
    ∀ (m0 : GoMap) (mo : Option GoMap),
      (∀ r ∈ routes, r ∈ hs.map (fun e => e.1)) →
      (∀ e ∈ hs, e.2 ≠ none) →
      routeLoop hs path routes m0 = Outcome.ok (mo, none) →
      mo = none ∧ ∀ r ∈ routes, ∀ v ∈ strSplit r ['/'], v = [] := by
  induction routes with
  | nil =>
    intro m0 mo _ _ h
    simp only [routeLoop, Outcome.ok.injEq, Prod.mk.injEq] at h
    exact ⟨h.1.symm, by simp⟩
  | cons route rest ih =>
    intro m0 mo hmem hnn h
    rw [routeLoop] at h
    cases hseg : segLoop (strSplit path ['/']) 0 (strSplit route ['/']) m0 false with
    | panic e => rw [hseg] at h; cases h
    | ok r =>
      obtain ⟨m1, flag⟩ := r
      rw [hseg] at h
      dsimp only at h
      have hfl := segLoop_flag _ _ _ _ _ _ _ hseg
      cases flag with
      | true =>
        exfalso
        simp only [if_true] at h
        obtain ⟨hr, hhr⟩ := lookupHandler_isSome hs route (hmem route (by simp))
        rw [hhr] at h
        simp only [Outcome.ok.injEq, Prod.mk.injEq] at h
        have := hnn (route, hr) (lookupHandler_mem hs route hr hhr)
        exact this h.2
      | false =>
        simp only [Bool.false_eq_true, if_false] at h
        obtain ⟨p1, p2⟩ := ih m1 mo (fun r hr => hmem r (by simp [hr])) hnn h
        refine ⟨p1, ?_⟩
        intro r hr v hv
        rcases List.mem_cons.mp hr with rfl | hr
        · simp only [Bool.false_or] at hfl
          have := List.any_eq_false.mp hfl.symm v hv
          simpa using this
        · exact p2 r hr v hv

/-- C18: `validate` never goes on to a later candidate after a pattern with a
non-empty segment.  With non-nil handlers, a call that returns no handler
returns `(nil, nil)` and every registered pattern has only empty segments; and
the first pattern in iteration order with a non-empty segment is returned as
the match unless the call panics. -/
theorem C18_no_fall_through (hs : Handlers) (path : GoString)
    (hnn : ∀ e ∈ hs, e.2 ≠ none) :
    (∀ mo : Option GoMap, validate hs path = Outcome.ok (mo, none) →
      mo = none ∧ ∀ e ∈ hs, ∀ v ∈ strSplit e.1 ['/'], v = []) ∧
    (∀ (pre post : Handlers) (P : GoString) (h : HandlerFunc),
      hs = pre ++ (P, h) :: post →
      (∀ e ∈ pre, ∀ v ∈ strSplit e.1 ['/'], v = []) →
      (∃ v ∈ strSplit P ['/'], v ≠ []) →
      (∃ e, validate hs path = Outcome.panic e) ∨
      ∃ m : GoMap, validate hs path = Outcome.ok (some m, h)) := by
  constructor
  · intro mo h
    obtain ⟨p1, p2⟩ := routeLoop_no_handler hs path _ [] mo (fun r hr => hr) hnn h
    refine ⟨p1, ?_⟩
    intro e he v hv
    exact p2 e.1 (List.mem_map.mpr ⟨e, he, rfl⟩) v hv
  · intro pre post P h hhs hpre hP
    have hlook : lookupHandler hs P = some h := by
      rw [hhs]
      have hPpre : ∀ e ∈ pre, e.1 ≠ P := by
        intro e he heP
        obtain ⟨v, hv, hvne⟩ := hP
        rw [← heP] at hv
        exact hvne (hpre e he v hv)
      clear hhs hnn hpre
      induction pre with
      | nil => simp [lookupHandler]
      | cons e t ih =>
        have hne := hPpre e (by simp)
        simp only [lookupHandler, List.cons_append, List.find?_cons, hne, decide_False]
        exact ih (fun e2 he2 => hPpre e2 (by simp [he2]))
    have hkeys : hs.map (fun e => e.1)
        = pre.map (fun e => e.1) ++ P :: post.map (fun e => e.1) := by
      rw [hhs]; simp
    rw [validate, hkeys, routeLoop_skip_empty hs path _ _ []
      (fun r hr v hv => by
        obtain ⟨e, he, rfl⟩ := List.mem_map.mp hr
        exact hpre e he v hv)]
    rw [routeLoop]
    cases hseg : segLoop (strSplit path ['/']) 0 (strSplit P ['/']) [] false with
    | panic e => exact Or.inl ⟨e, rfl⟩
    | ok r =>
      obtain ⟨m1, flag⟩ := r
      right
      have hfl := segLoop_flag _ _ _ _ _ _ _ hseg
      have hany : (strSplit P ['/']).any (fun v => decide (v ≠ [])) = true := by
        obtain ⟨v, hv, hvne⟩ := hP
        exact List.any_eq_true.mpr ⟨v, hv, by simpa using hvne⟩
      rw [hany] at hfl
      simp only [Bool.or_true] at hfl
      subst hfl
      exact ⟨m1, by simp [hlook]⟩

/-- C18, witness: only `/` registered, path `/`. -/
theorem C18_no_fall_through_witness :
    validate [("/".toList, some 1)] "/".toList = Outcome.ok (none, none) ∧
    (none : Option GoMap) = none ∧
    ∀ e ∈ [("/".toList, (some 1 : HandlerFunc))], ∀ v ∈ strSplit e.1 ['/'], v = [] :=
  ⟨by decide,
   (C18_no_fall_through [("/".toList, some 1)] "/".toList (by decide)).1 none (by decide)⟩

theorem handleLine_validate (lib : UrlLib) (handlers : Handlers) (data : GoString)
    (endIndex : Int) (headerTo : GoMap) (body : GoString) (hr : HandlerFunc)
    (req : Request)
    (h : handleLine lib handlers data endIndex headerTo body = HandleResult.dispatched hr req) :
    ∃ (path : GoString) (mo : Option GoMap), validate handlers path = Outcome.ok (mo, hr) ∧
      ((hr ≠ none ∧ req.PathParams = mo) ∨ (hr = none ∧ req.PathParams = none)) := by
  unfold handleLine at h
  split at h
  · cases h
  dsimp only at h
  repeat' split at h
  all_goals cases h
  · exact ⟨_, _, by assumption, Or.inl ⟨by simp, rfl⟩⟩
  · exact ⟨_, _, by assumption, Or.inr ⟨rfl, rfl⟩⟩

theorem handle_dispatched (lib : UrlLib) (handlers : Handlers) (data : GoString)
    (hr : HandlerFunc) (req : Request)
    (h : handle lib handlers data = HandleResult.dispatched hr req) :
    ∃ (endIndex : Int) (headerTo : GoMap) (body : GoString),
      handleLine lib handlers data endIndex headerTo body = HandleResult.dispatched hr req := by
  unfold handle at h
  dsimp only at h
  repeat' split at h
  all_goals first
    | cases h
    | exact ⟨_, _, _, h⟩

/-- C19: a pattern all of whose segments are empty, such as `/`, is never
resolved.  Registered alone it makes `validate` return `(nil, nil)` for every
path and `handle` call the fallback handler; in any table, the pattern that
resolves a path is another one. -/
theorem C19_empty_pattern_never_resolved (P : GoString) (h : HandlerFunc)
    (hP : ∀ v ∈ strSplit P ['/'], v = []) :
    (∀ path : GoString, validate [(P, h)] path = Outcome.ok (none, none)) ∧
    (∀ (T : Handlers) (path : GoString) (m : GoMap) (hr : HandlerFunc),
      validate T path = Outcome.ok (some m, hr) →
      ∃ route ∈ T.map (fun e => e.1), route ≠ P ∧ lookupHandler T route = some hr) ∧
    (∀ (lib : UrlLib) (data : GoString) (hr : HandlerFunc) (req : Request),
      handle lib [(P, h)] data = HandleResult.dispatched hr req →
      hr = none ∧ req.PathParams = none) := by
  have hval : ∀ path : GoString, validate [(P, h)] path = Outcome.ok (none, none) := by
    intro path
    rw [validate_single, segLoop_all_empty _ _ 0 [] false hP]
    simp
  refine ⟨hval, ?_, ?_⟩
  · intro T path m hr hv
    obtain ⟨route, hmem, ⟨v, hv1, hvne⟩, hl⟩ := validate_resolved T path m hr hv
    refine ⟨route, hmem, ?_, hl⟩
    intro e
    rw [e] at hv1
    exact hvne (hP v hv1)
  · intro lib data hr req hd
    obtain ⟨e, m, b, hline⟩ := handle_dispatched lib _ data hr req hd
    obtain ⟨path, mo, hv, hcase⟩ := handleLine_validate lib _ data e m b hr req hline
    rw [hval path] at hv
    simp only [Outcome.ok.injEq, Prod.mk.injEq] at hv
    rcases hcase with ⟨h1, _⟩ | ⟨h1, h2⟩
    · exact absurd hv.2.symm h1
    · exact ⟨h1, h2⟩

/-- C19, witness: only `/` registered, request for `/`. -/
theorem C19_empty_pattern_never_resolved_witness :
    validate [("/".toList, some 1)] "/".toList = Outcome.ok (none, none) ∧
    handle plainLib [("/".toList, some 1)] "GET / HTTP/1.1\r\n\r\n".toList
      = HandleResult.dispatched none ⟨[], none, [], []⟩ :=
  ⟨(C19_empty_pattern_never_resolved "/".toList (some 1) (by decide)).1 "/".toList,
   by decide⟩

/-- C20: the lookup `s.handlers[route]` behind `if flag` always finds the key,
because `route` is one of the keys of the same table: when the inner loop ends
with `flag` set, the loop over the candidates returns the parameter map and the
handler stored under `route`; the `break` behind the lookup is never taken. -/
theorem C20_lookup_always_found (handlers : Handlers) (path route : GoString)
    (rest : List GoString) (headerTo m1 : GoMap)
    (hmem : route ∈ handlers.map (fun e => e.1))
    (hflag : segLoop (strSplit path ['/']) 0 (strSplit route ['/']) headerTo false
      = Outcome.ok (m1, true)) :
    ∃ hr : HandlerFunc, lookupHandler handlers route = some hr ∧
      routeLoop handlers path (route :: rest) headerTo = Outcome.ok (some m1, hr) := by
  obtain ⟨hr, hhr⟩ := lookupHandler_isSome handlers route hmem
  refine ⟨hr, hhr, ?_⟩
  rw [routeLoop, hflag]
  simp [hhr]

/-- C20, witness: the table with `/a/b` and `/x`, path `/a/b`. -/
theorem C20_lookup_always_found_witness :
    ∃ hr : HandlerFunc,
      lookupHandler [("/a/b".toList, some 1), ("/x".toList, some 2)] "/a/b".toList = some hr ∧
      routeLoop [("/a/b".toList, some 1), ("/x".toList, some 2)] "/a/b".toList
        ("/a/b".toList :: ["/x".toList]) [] = Outcome.ok (some [], hr) :=
  C20_lookup_always_found [("/a/b".toList, some 1), ("/x".toList, some 2)] "/a/b".toList
    "/a/b".toList ["/x".toList] [] [] (by decide) (by decide)

/-! ## Decoding of the request path -/

theorem ParseRequestURI_origin_form (parseQuery : GoString → Values)
    (withScheme : GoString → Option URL) (d p : GoString)
    (hslash : ['/'] <+: d)
    (hctl : ∀ c ∈ d, ¬ (c < ' ' ∨ c = Char.ofNat 127))
    (hp : unescape (cutQuery d).1 = some p) :
    ParseRequestURI parseQuery withScheme d = some ⟨p, parseQuery (cutQuery d).2⟩ := by
  obtain ⟨t, rfl⟩ := hslash
  have hany : (['/'] ++ t).any (fun c => decide (c < ' ' ∨ c = Char.ofNat 127)) = false := by
    rw [List.any_eq_false]
    intro c hc
    simpa using hctl c hc
  have hscheme : getSchemeFrom (['/'] ++ t) 0 (['/'] ++ t) = Scheme.absent := by
    have h1 : ¬ (('a' ≤ '/' ∧ '/' ≤ 'z') ∨ ('A' ≤ '/' ∧ '/' ≤ 'Z')) := by decide
    have h2 : ¬ (('0' ≤ '/' ∧ '/' ≤ '9') ∨ '/' = '+' ∨ '/' = '-' ∨ '/' = '.') := by decide
    have h3 : ¬ '/' = ':' := by decide
    simp only [List.singleton_append, getSchemeFrom, h1, h2, h3, if_false]
  have hrest : ['/'] <+: (cutQuery (['/'] ++ t)).1 := by
    simp [cutQuery, List.takeWhile]
  unfold ParseRequestURI
  rw [hany, hscheme]
  simp only [Bool.false_eq_true, if_false]
  rw [if_neg (by simp), if_neg (by simp)]
  simp only [hrest, not_true_eq_false, if_false, hp]

theorem ParseRequestURI_origin_form_fails (parseQuery : GoString → Values)
    (withScheme : GoString → Option URL) (d : GoString)
    (hslash : ['/'] <+: d)
    (hctl : ∀ c ∈ d, ¬ (c < ' ' ∨ c = Char.ofNat 127))
    (hp : unescape (cutQuery d).1 = none) :
    ParseRequestURI parseQuery withScheme d = none := by
  obtain ⟨t, rfl⟩ := hslash
  have hany : (['/'] ++ t).any (fun c => decide (c < ' ' ∨ c = Char.ofNat 127)) = false := by
    rw [List.any_eq_false]
    intro c hc
    simpa using hctl c hc
  have hscheme : getSchemeFrom (['/'] ++ t) 0 (['/'] ++ t) = Scheme.absent := by
    have h1 : ¬ (('a' ≤ '/' ∧ '/' ≤ 'z') ∨ ('A' ≤ '/' ∧ '/' ≤ 'Z')) := by decide
    have h2 : ¬ (('0' ≤ '/' ∧ '/' ≤ '9') ∨ '/' = '+' ∨ '/' = '-' ∨ '/' = '.') := by decide
    have h3 : ¬ '/' = ':' := by decide
    simp only [List.singleton_append, getSchemeFrom, h1, h2, h3, if_false]
  have hrest : ['/'] <+: (cutQuery (['/'] ++ t)).1 := by
    simp [cutQuery, List.takeWhile]
  unfold ParseRequestURI
  rw [hany, hscheme]
  simp only [Bool.false_eq_true, if_false]
  rw [if_neg (by simp), if_neg (by simp)]
  simp only [hrest, not_true_eq_false, if_false, hp]

/-- C14, counterexample: the token `/a%2541` is decoded twice.  The call of
`url.PathUnescape` gives `/a%41`, `url.ParseRequestURI` unescapes the path
again, and the matcher is handed `/aA`: the request is resolved by the pattern
`/aA`. -/
theorem C14_counterexample :
    unescape "/a%2541".toList = some "/a%41".toList ∧
    ParseRequestURI (fun _ => []) (fun _ => none) "/a%41".toList = some ⟨"/aA".toList, []⟩ ∧
    handle (goLib (fun _ => []) (fun _ => none)) [("/aA".toList, some 1)]
        "GET /a%2541 HTTP/1.1\r\n\r\n".toList
      = HandleResult.dispatched (some 1) ⟨[], some [], [], []⟩ :=
  ⟨by decide, by decide, by decide⟩

/-- C14, amended: for a request line of three tokens with version `HTTP/1.1`
whose second token unescapes to a string `d` that begins with `/` and has no
control byte, the path handed to `validate` is the part of `d` before the first
`?` unescaped once more by `url.ParseRequestURI`, and the query parameters are
the parse of the part of `d` after that `?`; when this second unescaping
fails, `handle` returns and no handler is called. -/
theorem C14_path_decoded_twice (parseQuery : GoString → Values)
    (withScheme : GoString → Option URL) (handlers : Handlers) (data : GoString) (e : Nat)
    (headerTo : GoMap) (body method token d : GoString)
    (he : e ≤ data.length)
    (hparts : strSplit (data.take e) [' '] = [method, token, "HTTP/1.1".toList])
    (hd : unescape token = some d)
    (hslash : ['/'] <+: d)
    (hctl : ∀ c ∈ d, ¬ (c < ' ' ∨ c = Char.ofNat 127)) :
    (∀ p : GoString, unescape (cutQuery d).1 = some p →
      handleLine (goLib parseQuery withScheme) handlers data (e : Int) headerTo body =
        match validate handlers p with
        | Outcome.panic x => HandleResult.panicked x
        | Outcome.ok (pathParameters, hr) =>
          match hr with
          | some h => HandleResult.dispatched (some h)
              ⟨parseQuery (cutQuery d).2, pathParameters, headerTo, body⟩
          | none => HandleResult.dispatched none
              ⟨parseQuery (cutQuery d).2, none, headerTo, body⟩) ∧
    (unescape (cutQuery d).1 = none →
      handleLine (goLib parseQuery withScheme) handlers data (e : Int) headerTo body
        = HandleResult.returned) := by
  have hs : substr data 0 (e : Int) = Outcome.ok (data.take e) := by
    have c : (e : Int) ≤ (data.length : Int) := by omega
    simp [substr, c]
  constructor
  · intro p hp
    have huri := ParseRequestURI_origin_form parseQuery withScheme d p hslash hctl hp
    unfold handleLine
    rw [hs]
    simp only [hparts, elemAt, goLib, hd, huri, List.length_cons, List.length_nil,
      List.getElem?_cons_succ, List.getElem?_cons_zero, ne_eq, not_true_eq_false, if_false]
  · intro hp
    have huri := ParseRequestURI_origin_form_fails parseQuery withScheme d hslash hctl hp
    unfold handleLine
    rw [hs]
    simp only [hparts, elemAt, goLib, hd, huri, List.length_cons, List.length_nil,
      List.getElem?_cons_succ, List.getElem?_cons_zero, ne_eq, not_true_eq_false, if_false]

/-- C14, witness: the request line `GET /a%2541?x=1 HTTP/1.1` is resolved by
the pattern `/aA`, and the request line `GET /a%25zz HTTP/1.1`, whose second
unescaping fails, makes `handle` return. -/
theorem C14_path_decoded_twice_witness :
    handleLine (goLib (fun _ => []) (fun _ => none)) [("/aA".toList, some 1)]
        "GET /a%2541?x=1 HTTP/1.1\r\n\r\n".toList ((24 : Nat) : Int) [] []
      = HandleResult.dispatched (some 1) ⟨[], some [], [], []⟩ ∧
    handleLine (goLib (fun _ => []) (fun _ => none)) [("/aA".toList, some 1)]
        "GET /a%25zz HTTP/1.1\r\n\r\n".toList ((20 : Nat) : Int) [] []
      = HandleResult.returned :=
  ⟨(C14_path_decoded_twice (fun _ => []) (fun _ => none) [("/aA".toList, some 1)]
      "GET /a%2541?x=1 HTTP/1.1\r\n\r\n".toList 24 [] [] "GET".toList "/a%2541?x=1".toList
      "/a%41?x=1".toList
      (by decide) (by decide) (by decide) (by decide) (by decide)).1 "/aA".toList (by decide),
   (C14_path_decoded_twice (fun _ => []) (fun _ => none) [("/aA".toList, some 1)]
      "GET /a%25zz HTTP/1.1\r\n\r\n".toList 20 [] [] "GET".toList "/a%25zz".toList
      "/a%zz".toList
      (by decide) (by decide) (by decide) (by decide) (by decide)).2 (by decide)⟩

/-! ## Locking -/

/-- C16: `Register` does not take the write lock.  It writes the table between
`RLock` and `RUnlock`, and two goroutines can hold the read lock together: after
each of two `Register` calls has done its `RLock`, no goroutine holds the write
lock and both are about to write the table; in the same way a `Register` call
writes while a match reads. -/
theorem C16_register_writes_under_read_lock :
    RegisterOps = [Op.RLock, Op.writeTable, Op.RUnlock] ∧
    Goroutines.run ⟨⟨0, false⟩, [RegisterOps, RegisterOps]⟩ [0, 1]
      = some ⟨⟨2, false⟩, [[Op.writeTable, Op.RUnlock], [Op.writeTable, Op.RUnlock]]⟩ ∧
    Goroutines.racy ⟨⟨2, false⟩, [[Op.writeTable, Op.RUnlock], [Op.writeTable, Op.RUnlock]]⟩
      = true ∧
    Goroutines.run ⟨⟨0, false⟩, [RegisterOps, matchOps]⟩ [0, 1]
      = some ⟨⟨2, false⟩, [[Op.writeTable, Op.RUnlock], [Op.readTable, Op.RUnlock]]⟩ ∧
    Goroutines.racy ⟨⟨2, false⟩, [[Op.writeTable, Op.RUnlock], [Op.readTable, Op.RUnlock]]⟩
      = true :=
  ⟨rfl, by decide, by decide, by decide, by decide⟩

end Server
